import Mathlib

set_option maxRecDepth 8000

/-! Shallow embedding of the job-control core of the snush shell: the Job
Table (job.c, given as src/unnamed/part_000) and the signal dispatch, launch
and foreground-wait logic of src/lab4_shell/src/execute.c.  C ints are
modelled as Int (the ranges involved make overflow irrelevant), pid_t as Int,
pointers into the jobs array as indices, and every fallible operation returns
its C status flag paired with the updated state.  The jobs array of capacity
MAX_JOBS with live region 0..n_jobs-1 is modelled as the list of its live
entries (n_jobs = list length); a job's pid array of capacity total_processes
is kept whole, stale slots included, since remove_pid_from_job's shift leaves
a stale duplicate behind the live region exactly as the C loop does. -/

/-- Modelled from the spec: job.h is not in src; the spec says a job's state
is FOREGROUND or BACKGROUND, and execute.c only ever stores these two
constants. -/
inductive job_state where
  | FOREGROUND
  | BACKGROUND
  deriving DecidableEq

/-- Modelled from the spec: job.h, which defines MAX_JOBS, is not in src; the
spec states only that the Job Table is capacity-bounded by MAX_JOBS.  The
concrete value is immaterial: every theorem below refers to MAX_JOBS
symbolically. -/
def MAX_JOBS : Nat := 16

/-- struct job, with the fields job.c uses.  pids is the calloc'ed array of
capacity total_processes; its first remaining_processes entries are the live
member pids (add_pid_to_job writes at index remaining_processes and
increments it, remove_pid_from_job shift-removes inside that region and
decrements it). -/
structure job where
  job_id : Int
  pgid : Int
  state : job_state
  total_processes : Int
  remaining_processes : Int
  pids : List Int
  deriving DecidableEq

/-- struct job_manager: jobs holds the live entries (indices 0..n_jobs-1 of
the C array; n_jobs is the list length), plus the monotone next_job_id
counter. -/
structure job_manager where
  jobs : List job
  next_job_id : Int
  deriving DecidableEq

/-- Zeroed job, standing for the calloc'ed / memset slots of the C array
(used only as the default of in-bounds index accesses). -/
def djob : job :=
  { job_id := 0, pgid := 0, state := job_state.BACKGROUND,
    total_processes := 0, remaining_processes := 0, pids := [] }

/-- init_job_manager (job.c): empty table, next_job_id starts at 1. -/
def init_job_manager : job_manager := { jobs := [], next_job_id := 1 }

/-- Index of the first element satisfying p: the linear searches of job.c
(find loops over i = 0 .. n_jobs-1 returning the first hit). -/
def firstIdx {α : Type} (p : α → Bool) : List α → Option Nat
  | [] => none
  | a :: l => if p a then some 0 else (firstIdx p l).map (· + 1)

/-- find_job_by_jid (job.c): first job whose job_id matches. -/
def find_job_by_jid (m : job_manager) (jid : Int) : Option job :=
  m.jobs.find? (fun j => j.job_id == jid)

/-- remove_pid_from_job (job.c): search the first remaining_processes entries
of the pid array for pid; on a hit at index i, shift entries i+1..r-1 down by
one (the slot at r-1 keeps its old value, as the C loop leaves it) and
decrement remaining_processes; return whether the pid was found. -/
def remove_pid_from_job (j : job) (pid : Int) : Bool × job :=
  match firstIdx (fun x => x == pid) (j.pids.take j.remaining_processes.toNat) with
  | none => (false, j)
  | some i =>
      (true, { j with
                pids := (j.pids.take j.remaining_processes.toNat).eraseIdx i ++
                        j.pids.drop (j.remaining_processes.toNat - 1),
                remaining_processes := j.remaining_processes - 1 })

/-- delete_job (job.c): find the job with this job_id; free its pid storage,
shift the following jobs down to close the gap (memset the vacated last
slot), decrement n_jobs.  On the list of live entries this is exactly
removal at the found index. -/
def delete_job (m : job_manager) (jobid : Int) : Bool × job_manager :=
  match firstIdx (fun j => j.job_id == jobid) m.jobs with
  | none => (false, m)
  | some i => (true, { jobs := m.jobs.eraseIdx i, next_job_id := m.next_job_id })

/-- allocate_job (job.c): fail if the table already holds MAX_JOBS jobs
(returning the table untouched, as the C code returns NULL before any
mutation); otherwise append a job with a fresh job_id, the given pgid and
state, zero remaining_processes and a calloc'ed (zeroed) pid array of
capacity n_processes, and bump next_job_id.  The returned handle is the new
job's job_id (the C pointer to the slot). -/
def allocate_job (m : job_manager) (pgid : Int) (n_processes : Int)
    (state : job_state) : Option Int × job_manager :=
  if MAX_JOBS ≤ m.jobs.length then (none, m)
  else
    (some m.next_job_id,
     { jobs := m.jobs ++
         [{ job_id := m.next_job_id, pgid := pgid, state := state,
            total_processes := n_processes, remaining_processes := 0,
            pids := List.replicate n_processes.toNat 0 }],
       next_job_id := m.next_job_id + 1 })

/-- add_pid_to_job (job.c): fail if the job already holds total_processes
pids; otherwise write the pid at index remaining_processes and increment the
count. -/
def add_pid_to_job (j : job) (pid : Int) : Bool × job :=
  if j.total_processes ≤ j.remaining_processes then (false, j)
  else
    (true, { j with
              pids := j.pids.set j.remaining_processes.toNat pid,
              remaining_processes := j.remaining_processes + 1 })

/-- find_job_by_pid (job.c): first job whose live pid region (the first
remaining_processes entries) contains pid. -/
def find_job_by_pid (m : job_manager) (pid : Int) : Option job :=
  m.jobs.find? (fun j => (j.pids.take j.remaining_processes.toNat).any (fun x => x == pid))

/-- find_foreground_job (job.c): first job in state FOREGROUND. -/
def find_foreground_job (m : job_manager) : Option job :=
  m.jobs.find? (fun j => decide (j.state = job_state.FOREGROUND))

/-- Callers of job.c hold a `struct job *` into the table; mutating through
it updates the slot in place.  This wrapper locates the slot by job_id (ids
of live jobs are unique in every state the shell produces) and applies
add_pid_to_job to it. -/
def mgr_add_pid (m : job_manager) (jid : Int) (pid : Int) : Bool × job_manager :=
  match firstIdx (fun j => j.job_id == jid) m.jobs with
  | none => (false, m)
  | some i =>
      let r := add_pid_to_job (m.jobs.getD i djob) pid
      (r.1, { jobs := m.jobs.set i r.2, next_job_id := m.next_job_id })

/-- Pointer-based remove_pid_from_job lifted to the table, as mgr_add_pid. -/
def mgr_remove_pid (m : job_manager) (jid : Int) (pid : Int) : Bool × job_manager :=
  match firstIdx (fun j => j.job_id == jid) m.jobs with
  | none => (false, m)
  | some i =>
      let r := remove_pid_from_job (m.jobs.getD i djob) pid
      (r.1, { jobs := m.jobs.set i r.2, next_job_id := m.next_job_id })

/-- The pid-registration loop of fork_exec / iter_pipe_fork_exec: one
add_pid_to_job call per spawned pid, through the job handle. -/
def add_pids (m : job_manager) (jid : Int) (ps : List Int) : job_manager :=
  ps.foldl (fun acc p => (mgr_add_pid acc jid p).2) m

/-- A remove_pid_from_job call per listed pid, through the job handle. -/
def remove_pids (m : job_manager) (jid : Int) (ps : List Int) : job_manager :=
  ps.foldl (fun acc p => (mgr_remove_pid acc jid p).2) m

/-- Shell-level state visible to the signal dispatcher: the job table plus
the completed-background-job notification buffer of snush.c
(completed_bg_jobs / n_completed_bg_jobs, capacity MAX_JOBS), holding
(job_id, pgid) records. -/
structure shell_state where
  mgr : job_manager
  completed : List (Int × Int)
  deriving DecidableEq

/-- One iteration of handle_sigchld's waitpid loop (execute.c:63-80) for a
reaped pid: if no job contains the pid, the shell exits EXIT_FAILURE
(modelled as none); otherwise the pid is removed from its job, and once the
removal succeeded and remaining_processes reached zero, the job is recorded
in the notification buffer if it was BACKGROUND and the buffer is not full,
then deleted. -/
def sigchld_step (s : shell_state) (pid : Int) : Option shell_state :=
  match firstIdx (fun j => (j.pids.take j.remaining_processes.toNat).any (fun x => x == pid)) s.mgr.jobs with
  | none => none
  | some i =>
      let r := remove_pid_from_job (s.mgr.jobs.getD i djob) pid
      let m1 : job_manager := { jobs := s.mgr.jobs.set i r.2, next_job_id := s.mgr.next_job_id }
      if r.1 = true ∧ r.2.remaining_processes = 0 then
        let comp :=
          if r.2.state = job_state.BACKGROUND ∧ s.completed.length < MAX_JOBS
          then s.completed ++ [(r.2.job_id, r.2.pgid)]
          else s.completed
        some { mgr := (delete_job m1 r.2.job_id).2, completed := comp }
      else some { mgr := m1, completed := s.completed }

/-- handle_sigchld's dispatch over the pids its waitpid loop reaps, in
order; a lookup failure at any pid terminates the shell (none). -/
def handle_sigchld (s : shell_state) (reaped : List Int) : Option shell_state :=
  reaped.foldlM sigchld_step s

/-- Outcomes of one blocking waitpid(-pgid, &status, 0) call inside wait_fg,
as distinguished by execute.c:296-314: a reaped pid (> 0), a zero return, an
EINTR or ECHILD failure, or another error (printed and retried). -/
inductive wevent where
  | reap (pid : Int)
  | wzero
  | eintr
  | echild
  | werr
  deriving DecidableEq

/-- The wait loop of wait_fg (execute.c:295-315), driven by the sequence of
waitpid outcomes; idx is the table slot of the job the caller's pointer
designates.  A reaped pid is removed from the job and the loop breaks once
remaining_processes is zero; zero returns, EINTR and other errors continue;
ECHILD breaks.  none means the outcome sequence ended without the loop
exiting (no such execution terminates). -/
def wait_fg_loop (m : job_manager) (idx : Nat) : List wevent → Option job_manager
  | [] => none
  | e :: rest =>
    match e with
    | wevent.reap p =>
        let r := remove_pid_from_job (m.jobs.getD idx djob) p
        let m' : job_manager := { jobs := m.jobs.set idx r.2, next_job_id := m.next_job_id }
        if r.2.remaining_processes = 0 then some m' else wait_fg_loop m' idx rest
    | wevent.wzero => wait_fg_loop m idx rest
    | wevent.eintr => wait_fg_loop m idx rest
    | wevent.echild => some m
    | wevent.werr => wait_fg_loop m idx rest

/-- wait_fg (execute.c:284-320): look the job up by job_id (an absent job
only prints and returns); run the wait loop; after the loop, delete the job
if and only if its remaining_processes is zero. -/
def wait_fg (m : job_manager) (jid : Int) (events : List wevent) : Option job_manager :=
  match firstIdx (fun j => j.job_id == jid) m.jobs with
  | none => some m
  | some idx =>
      match wait_fg_loop m idx events with
      | none => none
      | some m' =>
          if (m'.jobs.getD idx djob).remaining_processes = 0
          then some (delete_job m' jid).2
          else some m'

/-- Job-table effect of a background launch (fork_exec / iter_pipe_fork_exec
with is_background set): allocate a BACKGROUND job sized for the spawned
pids and register each pid; if allocation fails the launch aborts with the
table untouched. -/
def bg_launch (m : job_manager) (pgid : Int) (ps : List Int) : job_manager :=
  match allocate_job m pgid (ps.length : Int) job_state.BACKGROUND with
  | (none, m1) => m1
  | (some jid, m1) => add_pids m1 jid ps

/-- Job-table effect of a foreground launch that reaches wait_fg: allocate a
FOREGROUND job, register each pid, then run wait_fg over the given waitpid
outcomes; if allocation fails the launch aborts with the table untouched. -/
def fg_launch (m : job_manager) (pgid : Int) (ps : List Int)
    (events : List wevent) : Option job_manager :=
  match allocate_job m pgid (ps.length : Int) job_state.FOREGROUND with
  | (none, m1) => some m1
  | (some jid, m1) => wait_fg (add_pids m1 jid ps) jid events

/-- Number of FOREGROUND jobs in the table. -/
def fgcount (m : job_manager) : Nat :=
  (m.jobs.filter (fun j => decide (j.state = job_state.FOREGROUND))).length

/-! Helper lemmas about firstIdx and basic list surgery. -/

/-- The live pid region of a job: the first remaining_processes entries of
its pid array. -/
def live (j : job) : List Int := j.pids.take j.remaining_processes.toNat

/-- An allocate_job or delete_job call with its arguments: the alphabet of
table operations claim C5 quantifies over. -/
inductive adop where
  | alloc (pgid : Int) (n : Int) (st : job_state)
  | del (jid : Int)

/-- Run a sequence of allocate/delete operations, collecting the job_id of
every successful allocation in order. -/
def run_ops : job_manager → List adop → job_manager × List Int
  | m, [] => (m, [])
  | m, adop.alloc p n st :: rest =>
      match allocate_job m p n st with
      | (none, m1) => run_ops m1 rest
      | (some jid, m1) =>
          let r := run_ops m1 rest
          (r.1, jid :: r.2)
  | m, adop.del j :: rest => run_ops (delete_job m j).2 rest

/-- Actions of a launch, as they appear in program order in fork_exec and
iter_pipe_fork_exec (parent side), plus the child's release-read completion
(readDoneEvt).  Only successful actions appear in a trace; a failing call
emits nothing and jumps to the cleanup path, exactly as the C gotos do. -/
inductive pevent where
  | allocEvt
  | setpgidEvt (k : Nat)
  | addPidEvt (k : Nat)
  | tcsetEvt
  | writeReleaseEvt (k : Nat)
  | unblockEvt
  | waitFgEvt
  | restoreTermEvt
  | printJobEvt
  | killChildEvt (k : Nat)
  | readDoneEvt (k : Nat)
  deriving DecidableEq

def isRelease : pevent → Bool
  | pevent.writeReleaseEvt _ => true
  | _ => false

def isParentEvt : pevent → Bool
  | pevent.readDoneEvt _ => false
  | _ => true

/-- Default event for in-bounds getD accesses on traces. -/
def devt : pevent := pevent.unblockEvt

/-- The cleanup path of fork_exec (execute.c:452-469): restore the terminal
for a foreground launch, kill the child, unblock signals. -/
def fe_cleanup (bg : Bool) : List pevent :=
  (if bg then [] else [pevent.restoreTermEvt]) ++ [pevent.killChildEvt 0]

/-- Parent-side action trace of fork_exec (execute.c:327-470), parameterised
by which fallible steps succeed.  Order on the success path: allocate_job,
setpgid, add_pid_to_job, tcsetpgrp (foreground only), the release-byte
write, signal unblocking, then print_job (background) or wait_fg followed by
the unconditional tcsetpgrp back to the shell (foreground). -/
def fork_exec_trace (bg pipe_ok fork_ok alloc_ok add_ok tcset_ok write_ok : Bool) :
    List pevent :=
  if pipe_ok = false then []
  else if fork_ok = false then []
  else if alloc_ok = false then fe_cleanup bg
  else pevent.allocEvt :: pevent.setpgidEvt 0 ::
    (if add_ok = false then fe_cleanup bg
     else pevent.addPidEvt 0 ::
       (if bg = false ∧ tcset_ok = false then fe_cleanup bg
        else (if bg then [] else [pevent.tcsetEvt]) ++
          (if write_ok = false then fe_cleanup bg
           else pevent.writeReleaseEvt 0 :: pevent.unblockEvt ::
             (if bg then [pevent.printJobEvt]
              else [pevent.waitFgEvt, pevent.restoreTermEvt]))))

/-- The cleanup path of iter_pipe_fork_exec (execute.c:707-731). -/
def ip_cleanup (bg : Bool) (n : Nat) : List pevent :=
  (if bg then [] else [pevent.restoreTermEvt]) ++ (List.range n).map pevent.killChildEvt

/-- Parent-side action trace of iter_pipe_fork_exec (execute.c:472-732) for
an n-process pipeline: a fork failure at stage i kills the i children forked
so far; on the registration path the parent allocates the job, setpgids and
add_pid_to_jobs all n pids (an add failure after i pids jumps to cleanup),
transfers the terminal when foreground, then writes one release byte per
child (a write failure after i bytes jumps to cleanup), and finally prints
the job or runs wait_fg and restores the terminal. -/
def iter_pipe_trace (bg : Bool) (n : Nat) (pipe_fail fork_fail : Option Nat)
    (alloc_ok : Bool) (add_fail : Option Nat) (tcset_ok : Bool)
    (write_fail : Option Nat) : List pevent :=
  match pipe_fail with
  | some _ => []
  | none =>
    match fork_fail with
    | some i => (List.range (min i n)).map pevent.killChildEvt
    | none =>
      if alloc_ok = false then ip_cleanup bg n
      else pevent.allocEvt :: ((List.range n).map pevent.setpgidEvt ++
        (match add_fail with
         | some i => (List.range (min i n)).map pevent.addPidEvt ++ ip_cleanup bg n
         | none =>
           (List.range n).map pevent.addPidEvt ++
           (if bg then
              (match write_fail with
               | some i =>
                   (List.range (min i n)).map pevent.writeReleaseEvt ++ ip_cleanup bg n
               | none => (List.range n).map pevent.writeReleaseEvt ++ [pevent.printJobEvt])
            else
              if tcset_ok = false then ip_cleanup bg n
              else pevent.tcsetEvt ::
                (match write_fail with
                 | some i =>
                     (List.range (min i n)).map pevent.writeReleaseEvt ++ ip_cleanup bg n
                 | none => (List.range n).map pevent.writeReleaseEvt ++
                     [pevent.waitFgEvt, pevent.restoreTermEvt]))))

/-- All live job_ids are below the next_job_id counter (holds in every state
the shell reaches; gives uniqueness of a freshly issued id). -/
def idsOK (m : job_manager) : Prop := ∀ j ∈ m.jobs, j.job_id < m.next_job_id

/-- Every job in the table is BACKGROUND (the shape of the table between
top-level shell steps: a FOREGROUND job only lives inside a foreground
launch). -/
def allBG (m : job_manager) : Prop := ∀ j ∈ m.jobs, j.state = job_state.BACKGROUND

/-- The claim's literal notion of reachability: any sequence of
allocate_job, add_pid_to_job, remove_pid_from_job, delete_job,
handle_sigchld dispatch, fork_exec (background or foreground table effect)
and wait_fg steps, each with arbitrary arguments, from the initial state. -/
inductive RawReach : shell_state → Prop where
  | init : RawReach ⟨init_job_manager, []⟩
  | alloc (s : shell_state) (p n : Int) (st : job_state) :
      RawReach s → RawReach ⟨(allocate_job s.mgr p n st).2, s.completed⟩
  | add (s : shell_state) (jid p : Int) :
      RawReach s → RawReach ⟨(mgr_add_pid s.mgr jid p).2, s.completed⟩
  | remove (s : shell_state) (jid p : Int) :
      RawReach s → RawReach ⟨(mgr_remove_pid s.mgr jid p).2, s.completed⟩
  | del (s : shell_state) (jid : Int) :
      RawReach s → RawReach ⟨(delete_job s.mgr jid).2, s.completed⟩
  | sigchld (s : shell_state) (reaped : List Int) (s' : shell_state) :
      RawReach s → handle_sigchld s reaped = some s' → RawReach s'
  | fork_bg (s : shell_state) (p : Int) (ps : List Int) :
      RawReach s → RawReach ⟨bg_launch s.mgr p ps, s.completed⟩
  | fork_fg (s : shell_state) (p : Int) (ps : List Int) (ev : List wevent)
      (m' : job_manager) :
      RawReach s → fg_launch s.mgr p ps ev = some m' → RawReach ⟨m', s.completed⟩
  | wait (s : shell_state) (jid : Int) (ev : List wevent) (m' : job_manager) :
      RawReach s → wait_fg s.mgr jid ev = some m' → RawReach ⟨m', s.completed⟩

/-- Shell-level reachability between interactive iterations: background
launches, foreground launches whose wait_fg runs and leaves the freshly
issued job deleted, and child-termination dispatches. -/
inductive ReachIdle : shell_state → Prop where
  | init : ReachIdle ⟨init_job_manager, []⟩
  | bg (s : shell_state) (p : Int) (ps : List Int) :
      ReachIdle s → ReachIdle ⟨bg_launch s.mgr p ps, s.completed⟩
  | fg (s : shell_state) (p : Int) (ps : List Int) (ev : List wevent)
      (m' : job_manager) :
      ReachIdle s → fg_launch s.mgr p ps ev = some m' →
      find_job_by_jid m' s.mgr.next_job_id = none →
      ReachIdle ⟨m', s.completed⟩
  | sigchld (s : shell_state) (reaped : List Int) (s' : shell_state) :
      ReachIdle s → handle_sigchld s reaped = some s' → ReachIdle s'

/-- C4: with the table already at MAX_JOBS jobs, allocate_job fails with a
null handle and leaves the table — job list and next_job_id — untouched. -/
theorem allocate_job_table_full (m : job_manager) (pgid n : Int)
    (st : job_state) (h : m.jobs.length = MAX_JOBS) :
    allocate_job m pgid n st = (none, m) := by
  unfold allocate_job
  rw [if_pos (le_of_eq h.symm)]

/-- Witness for C4 at a concrete full table. -/
theorem allocate_job_table_full_witness :
    (job_manager.mk (List.replicate MAX_JOBS djob) 1).jobs.length = MAX_JOBS ∧
      allocate_job (job_manager.mk (List.replicate MAX_JOBS djob) 1) 7 1
        job_state.FOREGROUND = (none, job_manager.mk (List.replicate MAX_JOBS djob) 1) :=
  ⟨by decide, allocate_job_table_full _ 7 1 _ (by decide)⟩

theorem jc_firstIdx_none {α : Type} (p : α → Bool) (l : List α) :
    firstIdx p l = none ↔ ∀ a ∈ l, p a = false := by
  induction l with
  | nil => simp [firstIdx]
  | cons a t ih =>
      by_cases h : p a
      · simp [firstIdx, h]
      · simp [firstIdx, h, Option.map_eq_none', ih]

theorem jc_firstIdx_lt {α : Type} {p : α → Bool} {l : List α} {i : Nat}
    (h : firstIdx p l = some i) : i < l.length := by
  induction l generalizing i with
  | nil => simp [firstIdx] at h
  | cons a t ih =>
      by_cases hp : p a
      · simp [firstIdx, hp] at h
        simp only [List.length_cons]
        omega
      · simp [firstIdx, hp, Option.map_eq_some'] at h
        obtain ⟨b, hb, rfl⟩ := h
        have := ih hb
        simp
        omega

theorem jc_firstIdx_pred {α : Type} {p : α → Bool} {l : List α} {i : Nat} (d : α)
    (h : firstIdx p l = some i) : p (l.getD i d) = true := by
  induction l generalizing i with
  | nil => simp [firstIdx] at h
  | cons a t ih =>
      by_cases hp : p a
      · simp [firstIdx, hp] at h
        subst h
        simpa using hp
      · simp [firstIdx, hp, Option.map_eq_some'] at h
        obtain ⟨b, hb, rfl⟩ := h
        simpa using ih hb

theorem jc_firstIdx_append {α : Type} {p : α → Bool} (l : List α) (x : α) (l2 : List α)
    (h : ∀ a ∈ l, p a = false) (hx : p x = true) :
    firstIdx p (l ++ x :: l2) = some l.length := by
  induction l with
  | nil => simp [firstIdx, hx]
  | cons a t ih =>
      have ha : p a = false := h a (by simp)
      have ht : ∀ b ∈ t, p b = false := fun b hb => h b (by simp [hb])
      simp [firstIdx, ha, ih ht]

theorem jc_find?_append {α : Type} {p : α → Bool} (l : List α) (x : α) (l2 : List α)
    (h : ∀ a ∈ l, p a = false) (hx : p x = true) :
    (l ++ x :: l2).find? p = some x := by
  induction l with
  | nil => simp [List.find?, hx]
  | cons a t ih =>
      have ha : p a = false := h a (by simp)
      have ht : ∀ b ∈ t, p b = false := fun b hb => h b (by simp [hb])
      simp [List.find?, ha, ih ht]

theorem jc_getD_append {α : Type} (l1 : List α) (y : α) (l2 : List α) (d : α) :
    (l1 ++ y :: l2).getD l1.length d = y := by
  induction l1 with
  | nil => simp
  | cons a t ih => simpa using ih

theorem jc_set_append {α : Type} (l1 : List α) (x y : α) (l2 : List α) :
    (l1 ++ x :: l2).set l1.length y = l1 ++ y :: l2 := by
  induction l1 with
  | nil => simp
  | cons a t ih => simp [List.set, ih]

theorem jc_eraseIdx_append {α : Type} (l1 : List α) (x : α) (l2 : List α) :
    (l1 ++ x :: l2).eraseIdx l1.length = l1 ++ l2 := by
  induction l1 with
  | nil => simp
  | cons a t ih => simp [List.eraseIdx, ih]

theorem jc_take_set {α : Type} (l : List α) (r : Nat) (p : α) (h : r < l.length) :
    (l.set r p).take (r + 1) = l.take r ++ [p] := by
  induction l generalizing r with
  | nil => simp at h
  | cons a t ih =>
      cases r with
      | zero => simp
      | succ r' =>
          simp only [List.set, List.take, List.cons_append]
          rw [ih r' (by simpa using h)]

theorem jc_set_getD {α : Type} (l : List α) (i : Nat) (d : α) (h : i < l.length) :
    l.set i (l.getD i d) = l := by
  induction l generalizing i with
  | nil => simp at h
  | cons a t ih =>
      cases i with
      | zero => simp
      | succ i' =>
          have h' : i' < t.length := by simpa using h
          show a :: t.set i' (t.getD i' d) = a :: t
          rw [ih i' h']

theorem jc_eraseIdx_getElem_lt {α : Type} (l : List α) (i k : Nat) (h : k < i) :
    (l.eraseIdx i)[k]? = l[k]? := by
  induction l generalizing i k with
  | nil => simp
  | cons a t ih =>
      cases i with
      | zero => omega
      | succ i' =>
          cases k with
          | zero => simp [List.eraseIdx]
          | succ k' => simpa [List.eraseIdx] using ih i' k' (by omega)

theorem jc_eraseIdx_getElem_ge {α : Type} (l : List α) (i k : Nat) (h : i ≤ k) :
    (l.eraseIdx i)[k]? = l[k + 1]? := by
  induction l generalizing i k with
  | nil => simp
  | cons a t ih =>
      cases i with
      | zero =>
          simp [List.eraseIdx]
      | succ i' =>
          cases k with
          | zero => omega
          | succ k' => simpa [List.eraseIdx] using ih i' k' (by omega)

theorem jc_eraseIdx_erase {L : List Int} {a : Int} {i : Nat}
    (h : firstIdx (fun y => y == a) L = some i) : L.eraseIdx i = L.erase a := by
  induction L generalizing i with
  | nil => simp [firstIdx] at h
  | cons b t ih =>
      by_cases hb : (b == a) = true
      · simp [firstIdx, hb] at h
        subst h
        simp [List.eraseIdx, List.erase_cons, hb]
      · simp only [firstIdx, hb, if_neg, Bool.false_eq_true, not_false_iff, if_false,
          Option.map_eq_some'] at h
        obtain ⟨j, hj, rfl⟩ := h
        simp [List.eraseIdx, List.erase_cons, hb, ih hj]

theorem jc_length_eraseIdx {α : Type} (l : List α) (i : Nat) (h : i < l.length) :
    (l.eraseIdx i).length = l.length - 1 := by
  induction l generalizing i with
  | nil => simp at h
  | cons a t ih =>
      cases i with
      | zero => simp [List.eraseIdx]
      | succ i' =>
          have h' : i' < t.length := by simpa using h
          have ht : 1 ≤ t.length := by omega
          simp [List.eraseIdx, ih i' h']
          omega

theorem jc_take_append {α : Type} (A B : List α) : (A ++ B).take A.length = A := by
  induction A with
  | nil => simp
  | cons a t ih => simp [List.take, ih]

theorem jc_firstIdx_isSome {L : List Int} {a : Int} (h : a ∈ L) :
    ∃ i, firstIdx (fun x => x == a) L = some i := by
  cases heq : firstIdx (fun x => x == a) L with
  | some i => exact ⟨i, rfl⟩
  | none =>
      rw [jc_firstIdx_none] at heq
      have := heq a h
      simp at this

theorem add_pid_fail {j : job} (p : Int)
    (hge : j.total_processes ≤ j.remaining_processes) :
    add_pid_to_job j p = (false, j) := by
  simp [add_pid_to_job, hge]

theorem add_pid_success {j : job} (p : Int)
    (hlen : j.pids.length = j.total_processes.toNat)
    (h0 : 0 ≤ j.remaining_processes)
    (hlt : j.remaining_processes < j.total_processes) :
    (add_pid_to_job j p).1 = true ∧
    (add_pid_to_job j p).2.job_id = j.job_id ∧
    (add_pid_to_job j p).2.pgid = j.pgid ∧
    (add_pid_to_job j p).2.state = j.state ∧
    (add_pid_to_job j p).2.total_processes = j.total_processes ∧
    (add_pid_to_job j p).2.remaining_processes = j.remaining_processes + 1 ∧
    (add_pid_to_job j p).2.pids.length = j.pids.length ∧
    live (add_pid_to_job j p).2 = live j ++ [p] := by
  have hnle : ¬ j.total_processes ≤ j.remaining_processes := by omega
  have hidx : j.remaining_processes.toNat < j.pids.length := by omega
  have htn : (j.remaining_processes + 1).toNat = j.remaining_processes.toNat + 1 := by
    omega
  refine ⟨?_, ?_, ?_, ?_, ?_, ?_, ?_, ?_⟩ <;>
    simp [add_pid_to_job, hnle, live, htn, jc_take_set _ _ _ hidx]

theorem remove_pid_not_mem {j : job} (p : Int) (h : p ∉ live j) :
    remove_pid_from_job j p = (false, j) := by
  have hnone : firstIdx (fun x => x == p) (j.pids.take j.remaining_processes.toNat) = none := by
    rw [jc_firstIdx_none]
    intro a ha
    rw [beq_eq_false_iff_ne]
    rintro rfl
    exact h ha
  simp [remove_pid_from_job, hnone]

theorem jc_take_append_len {α : Type} (A B : List α) (n : Nat) (h : A.length = n) :
    (A ++ B).take n = A := by
  subst h
  exact jc_take_append A B

theorem remove_pid_mem {j : job} (p : Int)
    (hlen : j.pids.length = j.total_processes.toNat)
    (h0 : 0 ≤ j.remaining_processes)
    (hle : j.remaining_processes ≤ j.total_processes)
    (hmem : p ∈ live j) :
    (remove_pid_from_job j p).1 = true ∧
    (remove_pid_from_job j p).2.job_id = j.job_id ∧
    (remove_pid_from_job j p).2.pgid = j.pgid ∧
    (remove_pid_from_job j p).2.state = j.state ∧
    (remove_pid_from_job j p).2.total_processes = j.total_processes ∧
    (remove_pid_from_job j p).2.remaining_processes = j.remaining_processes - 1 ∧
    (remove_pid_from_job j p).2.pids.length = j.pids.length ∧
    live (remove_pid_from_job j p).2 = (live j).erase p ∧
    1 ≤ j.remaining_processes := by
  simp only [live] at hmem
  obtain ⟨i, hi⟩ := jc_firstIdx_isSome hmem
  have hiL : i < (j.pids.take j.remaining_processes.toNat).length := jc_firstIdx_lt hi
  have hr : j.remaining_processes.toNat ≤ j.pids.length := by omega
  have htL : (j.pids.take j.remaining_processes.toNat).length = j.remaining_processes.toNat := by
    simp
    omega
  have h1 : 1 ≤ j.remaining_processes := by omega
  have htn : (j.remaining_processes - 1).toNat = j.remaining_processes.toNat - 1 := by
    omega
  have hlenE : ((j.pids.take j.remaining_processes.toNat).eraseIdx i).length =
      j.remaining_processes.toNat - 1 := by
    rw [jc_length_eraseIdx _ _ hiL, htL]
  have hred : remove_pid_from_job j p =
      (true, { j with
                pids := (j.pids.take j.remaining_processes.toNat).eraseIdx i ++
                        j.pids.drop (j.remaining_processes.toNat - 1),
                remaining_processes := j.remaining_processes - 1 }) := by
    simp only [remove_pid_from_job, hi]
  refine ⟨?_, ?_, ?_, ?_, ?_, ?_, ?_, ?_, h1⟩ <;> rw [hred]
  · simp only [List.length_append, List.length_drop, hlenE]
    omega
  · simp only [live, htn]
    rw [jc_take_append_len _ _ _ hlenE]
    exact jc_eraseIdx_erase hi

/-- C6: the bound 0 ≤ remaining_processes ≤ total_processes on a job.
allocate_job creates its job with remaining_processes = 0 (and the bound
holds as long as the requested size is not negative — every caller passes at
least 1); add_pid_to_job refuses to grow past total_processes, returning
failure with the job untouched; remove_pid_from_job decrements only when a
pid was found inside the live region, so the count never becomes negative,
and it never increases. -/
theorem remaining_processes_bounds :
    (∀ (m : job_manager) (pgid n : Int) (st : job_state) (jid : Int) (m1 : job_manager),
        0 ≤ n → allocate_job m pgid n st = (some jid, m1) →
        ∀ j ∈ m1.jobs, j ∈ m.jobs ∨
          (j.remaining_processes = 0 ∧ 0 ≤ j.remaining_processes ∧
            j.remaining_processes ≤ j.total_processes)) ∧
    (∀ (j : job) (p : Int),
        0 ≤ j.remaining_processes → j.remaining_processes ≤ j.total_processes →
          (0 ≤ (add_pid_to_job j p).2.remaining_processes ∧
            (add_pid_to_job j p).2.remaining_processes ≤
              (add_pid_to_job j p).2.total_processes) ∧
          (j.total_processes ≤ j.remaining_processes → add_pid_to_job j p = (false, j))) ∧
    (∀ (j : job) (p : Int),
        0 ≤ j.remaining_processes → j.remaining_processes ≤ j.total_processes →
          0 ≤ (remove_pid_from_job j p).2.remaining_processes ∧
          (remove_pid_from_job j p).2.remaining_processes ≤
            (remove_pid_from_job j p).2.total_processes ∧
          (remove_pid_from_job j p).2.remaining_processes ≤ j.remaining_processes) := by
  refine ⟨?_, ?_, ?_⟩
  · intro m pgid n st jid m1 hn halloc j hj
    simp only [allocate_job] at halloc
    split at halloc
    · simp at halloc
    · rw [Prod.mk.injEq] at halloc
      obtain ⟨-, hm1⟩ := halloc
      subst hm1
      simp only [List.mem_append] at hj
      rcases hj with h | h
      · exact Or.inl h
      · right
        simp only [List.mem_singleton] at h
        subst h
        refine ⟨rfl, le_refl 0, hn⟩
  · intro j p h0 hle
    constructor
    · by_cases hge : j.total_processes ≤ j.remaining_processes
      · rw [add_pid_fail p hge]
        exact ⟨h0, hle⟩
      · simp only [add_pid_to_job, if_neg hge]
        constructor <;> omega
    · intro hge
      exact add_pid_fail p hge
  · intro j p h0 hle
    cases heq : firstIdx (fun x => x == p) (j.pids.take j.remaining_processes.toNat) with
    | none =>
        simp only [remove_pid_from_job, heq]
        exact ⟨h0, hle, le_refl _⟩
    | some i =>
        have hiL := jc_firstIdx_lt heq
        have hlt : (j.pids.take j.remaining_processes.toNat).length ≤
            j.remaining_processes.toNat := by simp
        simp only [remove_pid_from_job, heq]
        refine ⟨?_, ?_, ?_⟩ <;> simp <;> omega

/-- Witness for C6 at a concrete job with one live pid of two slots. -/
theorem remaining_processes_bounds_witness :
    ((0 : Int) ≤ 1 ∧ (1 : Int) ≤ 2) ∧
      ((0 ≤ (add_pid_to_job ⟨9, 30, job_state.BACKGROUND, 2, 1, [5, 0]⟩ 7).2.remaining_processes ∧
          (add_pid_to_job ⟨9, 30, job_state.BACKGROUND, 2, 1, [5, 0]⟩ 7).2.remaining_processes ≤
            (add_pid_to_job ⟨9, 30, job_state.BACKGROUND, 2, 1, [5, 0]⟩ 7).2.total_processes) ∧
        ((2 : Int) ≤ 1 → add_pid_to_job ⟨9, 30, job_state.BACKGROUND, 2, 1, [5, 0]⟩ 7 =
          (false, ⟨9, 30, job_state.BACKGROUND, 2, 1, [5, 0]⟩))) :=
  ⟨⟨by decide, by decide⟩,
    remaining_processes_bounds.2.1 ⟨9, 30, job_state.BACKGROUND, 2, 1, [5, 0]⟩ 7
      (by decide) (by decide)⟩

/-- C7: delete_job keeps the table contiguous.  When it succeeds it removes
exactly the slot of the first job carrying the id, shifting every following
job down by one index and decrementing the job count by one (next_job_id is
untouched); when it fails the table is unchanged (and thus trivially still
contiguous). -/
theorem delete_job_contiguous (m : job_manager) (jid : Int) :
    ((delete_job m jid).1 = true →
      ∃ i, firstIdx (fun j => j.job_id == jid) m.jobs = some i ∧
        (delete_job m jid).2.jobs.length + 1 = m.jobs.length ∧
        (delete_job m jid).2.next_job_id = m.next_job_id ∧
        (∀ k, k < i → (delete_job m jid).2.jobs[k]? = m.jobs[k]?) ∧
        (∀ k, i ≤ k → (delete_job m jid).2.jobs[k]? = m.jobs[k + 1]?)) ∧
    ((delete_job m jid).1 = false → (delete_job m jid).2 = m) := by
  cases heq : firstIdx (fun j => j.job_id == jid) m.jobs with
  | none =>
      constructor
      · intro h
        simp [delete_job, heq] at h
      · intro _
        simp [delete_job, heq]
  | some i =>
      have hiL : i < m.jobs.length := jc_firstIdx_lt heq
      constructor
      · intro _
        refine ⟨i, rfl, ?_, ?_, ?_, ?_⟩
        · simp only [delete_job, heq]
          rw [jc_length_eraseIdx _ _ hiL]
          omega
        · simp [delete_job, heq]
        · intro k hk
          simp only [delete_job, heq]
          exact jc_eraseIdx_getElem_lt _ _ _ hk
        · intro k hk
          simp only [delete_job, heq]
          exact jc_eraseIdx_getElem_ge _ _ _ hk
      · intro h
        simp [delete_job, heq] at h

/-- Witness for C7: deleting job 1 out of a two-job table shifts job 2 down
to index 0. -/
theorem delete_job_contiguous_witness :
    ((delete_job
        ⟨[⟨1, 10, job_state.BACKGROUND, 1, 0, [0]⟩,
          ⟨2, 20, job_state.BACKGROUND, 1, 0, [0]⟩], 3⟩ 1).1 = true) ∧
      (∃ i, firstIdx (fun j : job => j.job_id == (1 : Int))
          [(⟨1, 10, job_state.BACKGROUND, 1, 0, [0]⟩ : job),
           ⟨2, 20, job_state.BACKGROUND, 1, 0, [0]⟩] = some i ∧
        (delete_job
          ⟨[⟨1, 10, job_state.BACKGROUND, 1, 0, [0]⟩,
            ⟨2, 20, job_state.BACKGROUND, 1, 0, [0]⟩], 3⟩ 1).2.jobs.length + 1 = 2 ∧
        (delete_job
          ⟨[⟨1, 10, job_state.BACKGROUND, 1, 0, [0]⟩,
            ⟨2, 20, job_state.BACKGROUND, 1, 0, [0]⟩], 3⟩ 1).2.next_job_id = 3 ∧
        (∀ k, k < i →
          (delete_job
            ⟨[⟨1, 10, job_state.BACKGROUND, 1, 0, [0]⟩,
              ⟨2, 20, job_state.BACKGROUND, 1, 0, [0]⟩], 3⟩ 1).2.jobs[k]? =
            [(⟨1, 10, job_state.BACKGROUND, 1, 0, [0]⟩ : job),
             ⟨2, 20, job_state.BACKGROUND, 1, 0, [0]⟩][k]?) ∧
        (∀ k, i ≤ k →
          (delete_job
            ⟨[⟨1, 10, job_state.BACKGROUND, 1, 0, [0]⟩,
              ⟨2, 20, job_state.BACKGROUND, 1, 0, [0]⟩], 3⟩ 1).2.jobs[k]? =
            [(⟨1, 10, job_state.BACKGROUND, 1, 0, [0]⟩ : job),
             ⟨2, 20, job_state.BACKGROUND, 1, 0, [0]⟩][k + 1]?)) :=
  ⟨by decide,
    (delete_job_contiguous
      ⟨[⟨1, 10, job_state.BACKGROUND, 1, 0, [0]⟩,
        ⟨2, 20, job_state.BACKGROUND, 1, 0, [0]⟩], 3⟩ 1).1 (by decide)⟩

theorem jc_getD_mem {α : Type} {l : List α} {i : Nat} (d : α) (h : i < l.length) :
    l.getD i d ∈ l := by
  induction l generalizing i with
  | nil => simp at h
  | cons a t ih =>
      cases i with
      | zero => simp
      | succ i' =>
          have h' : i' < t.length := by simpa using h
          right
          exact ih h'

theorem jc_delete_next (m : job_manager) (j : Int) :
    (delete_job m j).2.next_job_id = m.next_job_id := by
  cases heq : firstIdx (fun x => x.job_id == j) m.jobs <;> simp [delete_job, heq]

theorem jc_run_ops_ids (ops : List adop) :
    ∀ m : job_manager,
      (∀ x ∈ (run_ops m ops).2, m.next_job_id ≤ x) ∧
        (run_ops m ops).2.Pairwise (· < ·) := by
  induction ops with
  | nil =>
      intro m
      simp [run_ops]
  | cons op rest ih =>
      intro m
      cases op with
      | alloc p n st =>
          by_cases hfull : MAX_JOBS ≤ m.jobs.length
          · have hA : allocate_job m p n st = (none, m) := by
              simp [allocate_job, hfull]
            simp only [run_ops, hA]
            exact ih m
          · have hA : allocate_job m p n st =
                (some m.next_job_id,
                 { jobs := m.jobs ++
                     [{ job_id := m.next_job_id, pgid := p, state := st,
                        total_processes := n, remaining_processes := 0,
                        pids := List.replicate n.toNat 0 }],
                   next_job_id := m.next_job_id + 1 }) := by
              simp [allocate_job, hfull]
            simp only [run_ops, hA]
            obtain ⟨ihmem, ihpw⟩ := ih
              { jobs := m.jobs ++
                  [{ job_id := m.next_job_id, pgid := p, state := st,
                     total_processes := n, remaining_processes := 0,
                     pids := List.replicate n.toNat 0 }],
                next_job_id := m.next_job_id + 1 }
            have ihmem' : ∀ x ∈ (run_ops
                { jobs := m.jobs ++
                    [{ job_id := m.next_job_id, pgid := p, state := st,
                       total_processes := n, remaining_processes := 0,
                       pids := List.replicate n.toNat 0 }],
                  next_job_id := m.next_job_id + 1 } rest).2,
                m.next_job_id + 1 ≤ x := ihmem
            constructor
            · intro x hx
              simp only [List.mem_cons] at hx
              rcases hx with rfl | hx
              · exact le_refl _
              · have := ihmem' x hx
                omega
            · rw [List.pairwise_cons]
              refine ⟨?_, ihpw⟩
              intro x hx
              have := ihmem' x hx
              omega
      | del j =>
          simp only [run_ops]
          obtain ⟨ihmem, ihpw⟩ := ih (delete_job m j).2
          refine ⟨?_, ihpw⟩
          intro x hx
          have := ihmem x hx
          rw [jc_delete_next] at this
          exact this

/-- C5: across any sequence of allocate_job and delete_job operations from
the initial table, the job_ids handed out by the successful allocations are
strictly increasing in allocation order — so no job_id is ever issued twice,
even after the job carrying it is deleted (delete_job never touches
next_job_id). -/
theorem job_ids_strictly_increasing (ops : List adop) :
    (run_ops init_job_manager ops).2.Pairwise (· < ·) ∧
      (run_ops init_job_manager ops).2.Nodup := by
  have h := (jc_run_ops_ids ops init_job_manager).2
  exact ⟨h, h.imp (fun hlt => ne_of_lt hlt)⟩

/-- C8: during the child-termination dispatch, one reaped pid terminates the
shell (exit EXIT_FAILURE, modelled as none) exactly when find_job_by_pid
finds no job containing it; whenever the lookup succeeds the dispatcher
continues. -/
theorem sigchld_lookup_failure_fatal (s : shell_state) (pid : Int) :
    sigchld_step s pid = none ↔ find_job_by_pid s.mgr pid = none := by
  cases heq : firstIdx
      (fun j => (j.pids.take j.remaining_processes.toNat).any (fun x => x == pid))
      s.mgr.jobs with
  | none =>
      have hall := (jc_firstIdx_none _ _).mp heq
      have hfind : find_job_by_pid s.mgr pid = none := by
        rw [find_job_by_pid, List.find?_eq_none]
        intro a ha
        rw [hall a ha]
        simp
      simp [sigchld_step, heq, hfind]
  | some i =>
      have hne1 : sigchld_step s pid ≠ none := by
        simp only [sigchld_step, heq]
        split <;> simp
      have hmem : s.mgr.jobs.getD i djob ∈ s.mgr.jobs :=
        jc_getD_mem djob (jc_firstIdx_lt heq)
      have hpred := jc_firstIdx_pred djob heq
      have hne2 : find_job_by_pid s.mgr pid ≠ none := by
        rw [find_job_by_pid]
        intro h
        rw [List.find?_eq_none] at h
        exact absurd hpred (by simpa using h _ hmem)
      exact iff_of_false hne1 hne2

theorem jc_map_eraseIdx {α β : Type} (f : α → β) (l : List α) (i : Nat) :
    (l.eraseIdx i).map f = (l.map f).eraseIdx i := by
  induction l generalizing i with
  | nil => simp
  | cons a t ih =>
      cases i with
      | zero => simp [List.eraseIdx]
      | succ i' => simp [List.eraseIdx, ih]

theorem jc_getElem?_getD {α : Type} {l : List α} {i : Nat} (d : α) (h : i < l.length) :
    l[i]? = some (l.getD i d) := by
  induction l generalizing i with
  | nil => simp at h
  | cons a t ih =>
      cases i with
      | zero => simp
      | succ i' =>
          have h' : i' < t.length := by simpa using h
          simpa using ih h'

theorem jc_nodup_not_mem_eraseIdx {α : Type} {L : List α} {i : Nat} {a : α}
    (hnd : L.Nodup) (hL : L[i]? = some a) : a ∉ L.eraseIdx i := by
  induction L generalizing i with
  | nil => simp at hL
  | cons b t ih =>
      cases i with
      | zero =>
          simp only [List.getElem?_cons_zero, Option.some.injEq] at hL
          subst hL
          simpa [List.eraseIdx] using (List.nodup_cons.mp hnd).1
      | succ i' =>
          simp only [List.getElem?_cons_succ] at hL
          obtain ⟨hb, hndt⟩ := List.nodup_cons.mp hnd
          have hat : a ∈ t := by
            have := List.getElem?_mem hL
            exact this
          simp only [List.eraseIdx, List.mem_cons]
          rintro (rfl | hmem)
          · exact hb hat
          · exact ih hndt hL hmem

theorem jc_find_jid_none (m : job_manager) (jid : Int) :
    find_job_by_jid m jid = none ↔ jid ∉ m.jobs.map job.job_id := by
  rw [find_job_by_jid, List.find?_eq_none]
  constructor
  · intro h hmem
    simp only [List.mem_map] at hmem
    obtain ⟨j, hj, hid⟩ := hmem
    exact h j hj (by simp [hid])
  · intro h j hj hpred
    apply h
    simp only [List.mem_map]
    exact ⟨j, hj, by simpa using hpred⟩

theorem jc_delete_not_mem {m : job_manager} {jid : Int}
    (hnd : (m.jobs.map job.job_id).Nodup) :
    jid ∉ ((delete_job m jid).2.jobs.map job.job_id) := by
  cases heq : firstIdx (fun j => j.job_id == jid) m.jobs with
  | none =>
      have hall := (jc_firstIdx_none _ _).mp heq
      simp only [delete_job, heq]
      intro hmem
      simp only [List.mem_map] at hmem
      obtain ⟨j, hj, hid⟩ := hmem
      have := hall j hj
      simp [hid] at this
  | some i =>
      have hiL : i < m.jobs.length := jc_firstIdx_lt heq
      have hid : (m.jobs.getD i djob).job_id = jid := by
        simpa using jc_firstIdx_pred djob heq
      have hLi : (m.jobs.map job.job_id)[i]? = some jid := by
        rw [List.getElem?_map, jc_getElem?_getD djob hiL, Option.map_some', hid]
      simp only [delete_job, heq]
      rw [jc_map_eraseIdx]
      exact jc_nodup_not_mem_eraseIdx hnd hLi

/-- C10 (part 2 helper view): the completed-background-jobs buffer after a
dispatch step. -/
theorem sigchld_step_buffer_bounded (s : shell_state) (pid : Int) (s' : shell_state)
    (hb : s.completed.length ≤ MAX_JOBS) (hstep : sigchld_step s pid = some s') :
    s'.completed.length ≤ MAX_JOBS := by
  cases heq : firstIdx
      (fun j => (j.pids.take j.remaining_processes.toNat).any (fun x => x == pid))
      s.mgr.jobs with
  | none => simp [sigchld_step, heq] at hstep
  | some i =>
      simp only [sigchld_step, heq] at hstep
      split at hstep
      · split at hstep
        · rename_i hguard
          cases hstep
          simp only [List.length_append, List.length_singleton]
          omega
        · cases hstep
          exact hb
      · cases hstep
        exact hb

theorem jc_map_id_set (l : List job) (i : Nat) (j' : job)
    (h : i < l.length) (hid : j'.job_id = (l.getD i djob).job_id) :
    (l.set i j').map job.job_id = l.map job.job_id := by
  induction l generalizing i with
  | nil => simp at h
  | cons a t ih =>
      cases i with
      | zero =>
          simp only [List.getD] at hid
          simp only [List.set, List.map_cons]
          rw [show j'.job_id = a.job_id from by simpa using hid]
      | succ i' =>
          have h' : i' < t.length := by simpa using h
          simp only [List.set, List.map_cons]
          rw [ih i' h' (by simpa using hid)]

/-- C10: the completed-background-job notification buffer is capped at
MAX_JOBS entries, and when it is already full the dispatcher still deletes a
finished BACKGROUND job but silently drops its (job_id, pgid) notification
record: the buffer is unchanged, so the user is never told about that job. -/
theorem bg_notification_dropped_when_full :
    (∀ (s : shell_state) (pid : Int) (s' : shell_state),
        s.completed.length ≤ MAX_JOBS → sigchld_step s pid = some s' →
        s'.completed.length ≤ MAX_JOBS) ∧
    (∀ (s : shell_state) (pid : Int) (i : Nat),
        firstIdx (fun j => (j.pids.take j.remaining_processes.toNat).any (fun x => x == pid))
            s.mgr.jobs = some i →
        (s.mgr.jobs.getD i djob).state = job_state.BACKGROUND →
        (s.mgr.jobs.getD i djob).remaining_processes = 1 →
        (s.mgr.jobs.getD i djob).pids.take 1 = [pid] →
        s.completed.length = MAX_JOBS →
        (s.mgr.jobs.map job.job_id).Nodup →
        ∃ s', sigchld_step s pid = some s' ∧
          s'.completed = s.completed ∧
          (s.mgr.jobs.getD i djob).job_id ∉ s'.mgr.jobs.map job.job_id) := by
  constructor
  · exact sigchld_step_buffer_bounded
  · intro s pid i hidx hstate hrem hlive hfull hnd
    have hiL : i < s.mgr.jobs.length := jc_firstIdx_lt hidx
    have htn : (s.mgr.jobs.getD i djob).remaining_processes.toNat = 1 := by
      rw [hrem]
      rfl
    have hfi : firstIdx (fun x => x == pid)
        ((s.mgr.jobs.getD i djob).pids.take
          (s.mgr.jobs.getD i djob).remaining_processes.toNat) = some 0 := by
      rw [htn, hlive]
      simp [firstIdx]
    have hidj : (remove_pid_from_job (s.mgr.jobs.getD i djob) pid).2.job_id =
        (s.mgr.jobs.getD i djob).job_id := by
      simp only [remove_pid_from_job, hfi]
    have hfound : (remove_pid_from_job (s.mgr.jobs.getD i djob) pid).1 = true := by
      simp only [remove_pid_from_job, hfi]
    have hzero : (remove_pid_from_job (s.mgr.jobs.getD i djob) pid).2.remaining_processes = 0 := by
      simp only [remove_pid_from_job, hfi]
      rw [hrem]
      rfl
    have hc2 : ¬ ((remove_pid_from_job (s.mgr.jobs.getD i djob) pid).2.state =
        job_state.BACKGROUND ∧ s.completed.length < MAX_JOBS) := by
      rintro ⟨-, hlt⟩
      omega
    have hstep : sigchld_step s pid =
        some (shell_state.mk
          (delete_job
            (job_manager.mk
              (s.mgr.jobs.set i (remove_pid_from_job (s.mgr.jobs.getD i djob) pid).2)
              s.mgr.next_job_id)
            (remove_pid_from_job (s.mgr.jobs.getD i djob) pid).2.job_id).2
          s.completed) := by
      simp only [sigchld_step, hidx]
      rw [if_pos ⟨hfound, hzero⟩, if_neg hc2]
    refine ⟨_, hstep, rfl, ?_⟩
    have hmap : (s.mgr.jobs.set i
        (remove_pid_from_job (s.mgr.jobs.getD i djob) pid).2).map job.job_id =
        s.mgr.jobs.map job.job_id := jc_map_id_set _ _ _ hiL hidj
    have hnd1 : ((job_manager.mk
        (s.mgr.jobs.set i (remove_pid_from_job (s.mgr.jobs.getD i djob) pid).2)
        s.mgr.next_job_id).jobs.map job.job_id).Nodup := by
      show ((s.mgr.jobs.set i
        (remove_pid_from_job (s.mgr.jobs.getD i djob) pid).2).map job.job_id).Nodup
      rw [hmap]
      exact hnd
    show (s.mgr.jobs.getD i djob).job_id ∉
      ((delete_job
        (job_manager.mk
          (s.mgr.jobs.set i (remove_pid_from_job (s.mgr.jobs.getD i djob) pid).2)
          s.mgr.next_job_id)
        (remove_pid_from_job (s.mgr.jobs.getD i djob) pid).2.job_id).2.jobs.map job.job_id)
    rw [← hidj]
    exact jc_delete_not_mem hnd1

/-- Witness for C10: a full 16-entry buffer, one BACKGROUND job whose only
pid is reaped; the job disappears, the buffer does not change. -/
theorem bg_notification_dropped_when_full_witness :
    (firstIdx
        (fun j : job => (j.pids.take j.remaining_processes.toNat).any (fun x => x == (5 : Int)))
        [⟨4, 9, job_state.BACKGROUND, 1, 1, [5]⟩] = some 0 ∧
      (List.replicate MAX_JOBS ((0 : Int), (0 : Int))).length = MAX_JOBS) ∧
      (∃ s', sigchld_step
          ⟨⟨[⟨4, 9, job_state.BACKGROUND, 1, 1, [5]⟩], 5⟩,
            List.replicate MAX_JOBS ((0 : Int), (0 : Int))⟩ 5 = some s' ∧
        s'.completed = List.replicate MAX_JOBS ((0 : Int), (0 : Int)) ∧
        (([⟨4, 9, job_state.BACKGROUND, 1, 1, [5]⟩] : List job).getD 0 djob).job_id ∉
          s'.mgr.jobs.map job.job_id) :=
  ⟨⟨by decide, by decide⟩,
    bg_notification_dropped_when_full.2
      ⟨⟨[⟨4, 9, job_state.BACKGROUND, 1, 1, [5]⟩], 5⟩,
        List.replicate MAX_JOBS ((0 : Int), (0 : Int))⟩ 5 0
      (by decide) (by decide) (by decide) (by decide) (by decide) (by decide)⟩

theorem jc_add_pids_spec (ps : List Int) :
    ∀ (old : List job) (j : job) (nx : Int),
      (∀ x ∈ old, (x.job_id == j.job_id) = false) →
      j.pids.length = j.total_processes.toNat →
      0 ≤ j.remaining_processes →
      j.remaining_processes + (ps.length : Int) ≤ j.total_processes →
      ∃ j' : job,
        add_pids (job_manager.mk (old ++ [j]) nx) j.job_id ps =
          job_manager.mk (old ++ [j']) nx ∧
        j'.job_id = j.job_id ∧ j'.state = j.state ∧
        j'.total_processes = j.total_processes ∧
        j'.pids.length = j.pids.length ∧
        j'.remaining_processes = j.remaining_processes + (ps.length : Int) ∧
        live j' = live j ++ ps := by
  induction ps with
  | nil =>
      intro old j nx hold hlen h0 hcap
      exact ⟨j, by simp [add_pids], rfl, rfl, rfl, rfl, by simp, by simp⟩
  | cons p rest ih =>
      intro old j nx hold hlen h0 hcap
      simp only [List.length_cons] at hcap
      have hlt : j.remaining_processes < j.total_processes := by omega
      obtain ⟨hb, hid1, hpg1, hst1, htot1, hrem1, hlen1, hlive1⟩ :=
        add_pid_success p hlen h0 hlt
      have hfi : firstIdx (fun x => x.job_id == j.job_id) (old ++ [j]) = some old.length :=
        jc_firstIdx_append old j [] hold (by simp)
      have hg : (old ++ [j]).getD old.length djob = j := jc_getD_append old j [] djob
      have hstep : (mgr_add_pid (job_manager.mk (old ++ [j]) nx) j.job_id p).2 =
          job_manager.mk (old ++ [(add_pid_to_job j p).2]) nx := by
        simp only [mgr_add_pid, hfi, hg]
        rw [jc_set_append]
      have hunfold : add_pids (job_manager.mk (old ++ [j]) nx) j.job_id (p :: rest) =
          add_pids (job_manager.mk (old ++ [(add_pid_to_job j p).2]) nx) j.job_id rest := by
        simp only [add_pids, List.foldl_cons, hstep]
      obtain ⟨j', hj'eq, hj'id, hj'st, hj'tot, hj'len, hj'rem, hj'live⟩ :=
        ih old (add_pid_to_job j p).2 nx
          (by intro x hx; rw [hid1]; exact hold x hx)
          (by rw [hlen1, htot1]; exact hlen)
          (by rw [hrem1]; omega)
          (by rw [hrem1, htot1]; omega)
      refine ⟨j', ?_, hj'id.trans hid1, hj'st.trans hst1, hj'tot.trans htot1,
        hj'len.trans hlen1, ?_, ?_⟩
      · rw [hunfold, ← hid1]
        exact hj'eq
      · rw [hj'rem, hrem1]
        simp only [List.length_cons]
        push_cast
        ring
      · rw [hj'live, hlive1]
        simp

theorem jc_remove_pids_spec (qs : List Int) :
    ∀ (old : List job) (j : job) (nx : Int),
      (∀ x ∈ old, (x.job_id == j.job_id) = false) →
      j.pids.length = j.total_processes.toNat →
      0 ≤ j.remaining_processes →
      j.remaining_processes ≤ j.total_processes →
      qs.Perm (live j) →
      ∃ j' : job,
        remove_pids (job_manager.mk (old ++ [j]) nx) j.job_id qs =
          job_manager.mk (old ++ [j']) nx ∧
        j'.job_id = j.job_id ∧
        j'.remaining_processes = 0 := by
  induction qs with
  | nil =>
      intro old j nx hold hlen h0 hle hperm
      have hlive : live j = [] := List.perm_nil.mp hperm.symm
      have hlive_len := congrArg List.length hlive
      simp only [live, List.length_take, List.length_nil] at hlive_len
      have hr0 : j.remaining_processes = 0 := by omega
      exact ⟨j, by simp [remove_pids], rfl, hr0⟩
  | cons q rest ih =>
      intro old j nx hold hlen h0 hle hperm
      have hq : q ∈ live j := hperm.mem_iff.mp (by simp)
      obtain ⟨hb, hid1, hpg1, hst1, htot1, hrem1, hlen1, hlive1, hge1⟩ :=
        remove_pid_mem q hlen h0 hle hq
      have hfi : firstIdx (fun x => x.job_id == j.job_id) (old ++ [j]) = some old.length :=
        jc_firstIdx_append old j [] hold (by simp)
      have hg : (old ++ [j]).getD old.length djob = j := jc_getD_append old j [] djob
      have hstep : (mgr_remove_pid (job_manager.mk (old ++ [j]) nx) j.job_id q).2 =
          job_manager.mk (old ++ [(remove_pid_from_job j q).2]) nx := by
        simp only [mgr_remove_pid, hfi, hg]
        rw [jc_set_append]
      have hunfold : remove_pids (job_manager.mk (old ++ [j]) nx) j.job_id (q :: rest) =
          remove_pids (job_manager.mk (old ++ [(remove_pid_from_job j q).2]) nx) j.job_id rest := by
        simp only [remove_pids, List.foldl_cons, hstep]
      have hperm' : rest.Perm (live (remove_pid_from_job j q).2) := by
        rw [hlive1]
        have h1 : List.Perm (live j) (q :: (live j).erase q) := List.perm_cons_erase hq
        have h2 : List.Perm (q :: rest) (q :: (live j).erase q) := hperm.trans h1
        exact h2.cons_inv
      obtain ⟨j', hj'eq, hj'id, hj'rem⟩ :=
        ih old (remove_pid_from_job j q).2 nx
          (by intro x hx; rw [hid1]; exact hold x hx)
          (by rw [hlen1, htot1]; exact hlen)
          (by rw [hrem1]; omega)
          (by rw [hrem1, htot1]; omega)
          hperm'
      refine ⟨j', ?_, hj'id.trans hid1, hj'rem⟩
      rw [hunfold, ← hid1]
      exact hj'eq

/-- C3: from any job table with a free slot (and live job_ids all below
next_job_id, which holds in every reachable table), allocating a job of size
N ≥ 1, registering N distinct pids, then removing those N pids (in any
order) leaves the job with remaining_processes = 0; deleting the job's id
then succeeds exactly once and a second delete_job of the same id fails. -/
theorem round_trip_allocate_add_remove_delete
    (m : job_manager) (pgid : Int) (st : job_state) (N : Nat) (ps qs : List Int)
    (hN : 1 ≤ N) (hlen : ps.length = N) (hnd : ps.Nodup)
    (hfree : m.jobs.length < MAX_JOBS)
    (hwf : ∀ j ∈ m.jobs, j.job_id < m.next_job_id)
    (hperm : qs.Perm ps) :
    ∃ m1 : job_manager,
      allocate_job m pgid (N : Int) st = (some m.next_job_id, m1) ∧
      (∃ j', find_job_by_jid (remove_pids (add_pids m1 m.next_job_id ps) m.next_job_id qs)
          m.next_job_id = some j' ∧ j'.remaining_processes = 0) ∧
      (delete_job (remove_pids (add_pids m1 m.next_job_id ps) m.next_job_id qs)
          m.next_job_id).1 = true ∧
      (delete_job (delete_job (remove_pids (add_pids m1 m.next_job_id ps) m.next_job_id qs)
          m.next_job_id).2 m.next_job_id).1 = false := by
  have hnfull : ¬ MAX_JOBS ≤ m.jobs.length := by omega
  have hold : ∀ x ∈ m.jobs, (x.job_id == m.next_job_id) = false := by
    intro x hx
    rw [beq_eq_false_iff_ne]
    have := hwf x hx
    omega
  set j0 : job :=
    job.mk m.next_job_id pgid st (N : Int) 0 (List.replicate (N : Int).toNat 0) with hj0
  have hA : allocate_job m pgid (N : Int) st = (some m.next_job_id,
      job_manager.mk (m.jobs ++ [j0]) (m.next_job_id + 1)) := by
    simp [allocate_job, hnfull, hj0]
  have hj0id : j0.job_id = m.next_job_id := rfl
  have hj0len : j0.pids.length = j0.total_processes.toNat := by simp [hj0]
  have hj00 : (0 : Int) ≤ j0.remaining_processes := by simp [hj0]
  have hj0rem : j0.remaining_processes = 0 := rfl
  have hj0tot : j0.total_processes = (N : Int) := rfl
  have hj0cap : j0.remaining_processes + (ps.length : Int) ≤ j0.total_processes := by
    rw [hlen]
    omega
  obtain ⟨jA, hAeq, hAid, hASt, hATot, hALen, hARem, hALive⟩ :=
    jc_add_pids_spec ps m.jobs j0 (m.next_job_id + 1)
      (by intro x hx; rw [hj0id]; exact hold x hx)
      hj0len hj00 hj0cap
  rw [hj0id] at hAeq
  have hAlive' : live jA = ps := by
    rw [hALive]
    have hl0 : live j0 = [] := by simp [live, hj0]
    rw [hl0]
    simp
  obtain ⟨jR, hReq, hRid, hRrem⟩ :=
    jc_remove_pids_spec qs m.jobs jA (m.next_job_id + 1)
      (by intro x hx; rw [hAid, hj0id]; exact hold x hx)
      (by rw [hALen, hATot]; exact hj0len)
      (by rw [hARem]; omega)
      (by rw [hARem, hATot, hlen]; omega)
      (by rw [hAlive']; exact hperm)
  rw [hAid, hj0id] at hReq
  have hfull_id : jR.job_id = m.next_job_id := by rw [hRid, hAid, hj0id]
  have hfind : find_job_by_jid (job_manager.mk (m.jobs ++ [jR]) (m.next_job_id + 1))
      m.next_job_id = some jR := by
    rw [find_job_by_jid]
    exact jc_find?_append m.jobs jR [] hold (by simp [hfull_id])
  have hfiD : firstIdx (fun x => x.job_id == m.next_job_id) (m.jobs ++ [jR]) =
      some m.jobs.length :=
    jc_firstIdx_append m.jobs jR [] hold (by simp [hfull_id])
  have hdel1 : delete_job (job_manager.mk (m.jobs ++ [jR]) (m.next_job_id + 1))
      m.next_job_id = (true, job_manager.mk m.jobs (m.next_job_id + 1)) := by
    simp only [delete_job, hfiD]
    rw [jc_eraseIdx_append]
    simp
  have hfiN : firstIdx (fun x => x.job_id == m.next_job_id) m.jobs = none :=
    (jc_firstIdx_none _ _).mpr hold
  have hdel2 : (delete_job (job_manager.mk m.jobs (m.next_job_id + 1)) m.next_job_id).1 =
      false := by
    simp [delete_job, hfiN]
  refine ⟨job_manager.mk (m.jobs ++ [j0]) (m.next_job_id + 1), hA, ?_, ?_, ?_⟩
  · rw [hAeq, hReq]
    exact ⟨jR, hfind, hRrem⟩
  · rw [hAeq, hReq, hdel1]
  · rw [hAeq, hReq, hdel1]
    exact hdel2

/-- Witness for C3: empty table, N = 2, pids 5 and 6 added, removed in the
opposite order. -/
theorem round_trip_witness :
    (1 ≤ 2 ∧ ([5, 6] : List Int).length = 2 ∧ ([5, 6] : List Int).Nodup ∧
      init_job_manager.jobs.length < MAX_JOBS ∧
      ([6, 5] : List Int).Perm [5, 6]) ∧
      (∃ m1 : job_manager,
        allocate_job init_job_manager 30 (2 : Int) job_state.FOREGROUND =
          (some init_job_manager.next_job_id, m1) ∧
        (∃ j', find_job_by_jid
            (remove_pids (add_pids m1 init_job_manager.next_job_id [5, 6])
              init_job_manager.next_job_id [6, 5])
            init_job_manager.next_job_id = some j' ∧ j'.remaining_processes = 0) ∧
        (delete_job (remove_pids (add_pids m1 init_job_manager.next_job_id [5, 6])
            init_job_manager.next_job_id [6, 5])
            init_job_manager.next_job_id).1 = true ∧
        (delete_job (delete_job (remove_pids (add_pids m1 init_job_manager.next_job_id [5, 6])
            init_job_manager.next_job_id [6, 5])
            init_job_manager.next_job_id).2 init_job_manager.next_job_id).1 = false) :=
  ⟨⟨by decide, by decide, by decide, by decide, by decide⟩,
    round_trip_allocate_add_remove_delete init_job_manager 30 job_state.FOREGROUND 2
      [5, 6] [6, 5] (by decide) (by decide) (by decide) (by decide)
      (by intro j hj; simp [init_job_manager] at hj) (by decide)⟩

theorem jc_remove_fields (j : job) (pid : Int) :
    (remove_pid_from_job j pid).2.job_id = j.job_id ∧
    (remove_pid_from_job j pid).2.state = j.state ∧
    (remove_pid_from_job j pid).2.total_processes = j.total_processes := by
  cases heq : firstIdx (fun x => x == pid) (j.pids.take j.remaining_processes.toNat) <;>
    simp [remove_pid_from_job, heq]

theorem jc_getD_set {α : Type} (l : List α) (i : Nat) (x d : α) (h : i < l.length) :
    (l.set i x).getD i d = x := by
  induction l generalizing i with
  | nil => simp at h
  | cons a t ih =>
      cases i with
      | zero => simp
      | succ i' =>
          have h' : i' < t.length := by simpa using h
          simpa [List.set] using ih i' h'

theorem jc_find?_firstIdx {α : Type} {p : α → Bool} {l : List α} {j : α} (d : α)
    (h : l.find? p = some j) :
    ∃ i, firstIdx p l = some i ∧ l.getD i d = j ∧ i < l.length := by
  induction l with
  | nil => simp at h
  | cons a t ih =>
      by_cases hp : p a
      · rw [List.find?_cons_of_pos _ hp] at h
        cases h
        exact ⟨0, by simp [firstIdx, hp], by simp, by simp⟩
      · rw [List.find?_cons_of_neg _ (by simpa using hp)] at h
        obtain ⟨i, hfi, hg, hlt⟩ := ih h
        refine ⟨i + 1, ?_, by simpa using hg, by simpa using hlt⟩
        simp [firstIdx, hp, hfi]

theorem jc_find?_of_unique {l : List job} {idx : Nat} {x : job} {jid : Int}
    (hnd : (l.map job.job_id).Nodup) (hx : l[idx]? = some x) (hid : x.job_id = jid) :
    l.find? (fun y => y.job_id == jid) = some x := by
  induction l generalizing idx with
  | nil => simp at hx
  | cons a t ih =>
      rw [List.map_cons, List.nodup_cons] at hnd
      obtain ⟨ha, hndt⟩ := hnd
      cases idx with
      | zero =>
          simp only [List.getElem?_cons_zero, Option.some.injEq] at hx
          subst hx
          rw [List.find?_cons_of_pos _ (by simp [hid])]
      | succ i' =>
          simp only [List.getElem?_cons_succ] at hx
          have hxt : x ∈ t := List.getElem?_mem hx
          have hane : (a.job_id == jid) = false := by
            rw [beq_eq_false_iff_ne]
            intro hcon
            apply ha
            rw [hcon, ← hid]
            exact List.mem_map_of_mem job.job_id hxt
          rw [List.find?_cons_of_neg _ (by simp [hane])]
          exact ih hndt hx

theorem jc_wait_loop_shape (ev : List wevent) :
    ∀ (m : job_manager) (idx : Nat) (mL : job_manager),
      idx < m.jobs.length →
      wait_fg_loop m idx ev = some mL →
      ∃ j', mL = job_manager.mk (m.jobs.set idx j') m.next_job_id ∧
        j'.job_id = (m.jobs.getD idx djob).job_id ∧
        j'.state = (m.jobs.getD idx djob).state := by
  induction ev with
  | nil =>
      intro m idx mL _ h
      simp [wait_fg_loop] at h
  | cons e rest ih =>
      intro m idx mL hidx h
      cases e with
      | reap p =>
          simp only [wait_fg_loop] at h
          split at h
          · cases h
            obtain ⟨h1, h2, h3⟩ := jc_remove_fields (m.jobs.getD idx djob) p
            exact ⟨(remove_pid_from_job (m.jobs.getD idx djob) p).2, rfl, h1, h2⟩
          · have hidx' : idx <
                (job_manager.mk
                  (m.jobs.set idx (remove_pid_from_job (m.jobs.getD idx djob) p).2)
                  m.next_job_id).jobs.length := by
              simpa using hidx
            obtain ⟨j', hmL, hid, hst⟩ := ih _ idx mL hidx' h
            obtain ⟨h1, h2, h3⟩ := jc_remove_fields (m.jobs.getD idx djob) p
            have hgset : ((m.jobs.set idx
                (remove_pid_from_job (m.jobs.getD idx djob) p).2).getD idx djob) =
                (remove_pid_from_job (m.jobs.getD idx djob) p).2 :=
              jc_getD_set _ _ _ _ hidx
            refine ⟨j', ?_, ?_, ?_⟩
            · rw [hmL]
              show job_manager.mk ((m.jobs.set idx _).set idx j') m.next_job_id = _
              rw [List.set_set]
            · rw [hid]
              show ((m.jobs.set idx _).getD idx djob).job_id = _
              rw [hgset, h1]
            · rw [hst]
              show ((m.jobs.set idx _).getD idx djob).state = _
              rw [hgset, h2]
      | wzero => exact ih m idx mL hidx h
      | eintr => exact ih m idx mL hidx h
      | werr => exact ih m idx mL hidx h
      | echild =>
          simp only [wait_fg_loop, Option.some.injEq] at h
          subst h
          refine ⟨m.jobs.getD idx djob, ?_, rfl, rfl⟩
          rw [jc_set_getD _ _ _ hidx]

/-- C1 counterexample: a wait_fg invocation on an existing job (job_id 1,
one member pid still registered) whose wait loop exits through the ECHILD
branch.  The loop has exited (wait_fg returns), yet the job is NOT deleted:
it is still found in the table afterwards, against the claim that on loop
exit the job is deleted unconditionally, regardless of how the loop ended. -/
theorem wait_fg_echild_counterexample :
    wait_fg ⟨[⟨1, 10, job_state.FOREGROUND, 1, 1, [5]⟩], 2⟩ 1 [wevent.echild] =
      some ⟨[⟨1, 10, job_state.FOREGROUND, 1, 1, [5]⟩], 2⟩ ∧
    find_job_by_jid ⟨[⟨1, 10, job_state.FOREGROUND, 1, 1, [5]⟩], 2⟩ 1 ≠ none := by
  decide

/-- C1 (amended): when wait_fg's loop exits, the job is deleted exactly when
its remaining_processes has reached zero — always on a normal exit, but on
an ECHILD exit with a positive count the job stays in the table
(execute.c:318-319 guards delete_job with remaining_processes == 0) — and
terminal control is restored to the shell unconditionally by the caller:
on fork_exec's foreground path, every occurrence of wait_fg is followed by
the tcsetpgrp restoring the shell's process group, whatever wait_fg did. -/
theorem wait_fg_delete_iff_zero_and_restore :
    (∀ (m : job_manager) (jid : Int) (ev : List wevent) (m' : job_manager) (j : job),
        (m.jobs.map job.job_id).Nodup →
        find_job_by_jid m jid = some j →
        wait_fg m jid ev = some m' →
        find_job_by_jid m' jid = none ∨
          (∃ j', find_job_by_jid m' jid = some j' ∧ j'.remaining_processes ≠ 0)) ∧
    (∀ (bg pipe_ok fork_ok alloc_ok add_ok tcset_ok write_ok : Bool) (i : Nat),
        i < (fork_exec_trace bg pipe_ok fork_ok alloc_ok add_ok tcset_ok write_ok).length →
        (fork_exec_trace bg pipe_ok fork_ok alloc_ok add_ok tcset_ok write_ok).getD i devt =
          pevent.waitFgEvt →
        ∃ jx,
          jx < (fork_exec_trace bg pipe_ok fork_ok alloc_ok add_ok tcset_ok write_ok).length ∧
          i < jx ∧
          (fork_exec_trace bg pipe_ok fork_ok alloc_ok add_ok tcset_ok write_ok).getD jx devt =
            pevent.restoreTermEvt) := by
  constructor
  · intro m jid ev m' j hnd hfind hrun
    rw [find_job_by_jid] at hfind
    obtain ⟨idx, hfi, hg, hlt⟩ := jc_find?_firstIdx djob hfind
    have hidj : j.job_id = jid := by
      have := List.find?_some hfind
      simpa using this
    simp only [wait_fg, hfi] at hrun
    cases hloop : wait_fg_loop m idx ev with
    | none => rw [hloop] at hrun; simp at hrun
    | some mL =>
        simp only [hloop] at hrun
        obtain ⟨j', hmL, hj'id, hj'st⟩ := jc_wait_loop_shape ev m idx mL hlt hloop
        have hgd : mL.jobs.getD idx djob = j' := by
          rw [hmL]
          exact jc_getD_set _ _ _ _ hlt
        have hj'jid : j'.job_id = jid := by rw [hj'id, hg, hidj]
        have hmapL : mL.jobs.map job.job_id = m.jobs.map job.job_id := by
          rw [hmL]
          exact jc_map_id_set _ _ _ hlt (by rw [hj'id])
        have hndL : (mL.jobs.map job.job_id).Nodup := by
          rw [hmapL]
          exact hnd
        by_cases hz : (mL.jobs.getD idx djob).remaining_processes = 0
        · rw [if_pos hz] at hrun
          cases hrun
          left
          rw [jc_find_jid_none]
          exact jc_delete_not_mem hndL
        · rw [if_neg hz] at hrun
          cases hrun
          right
          refine ⟨j', ?_, ?_⟩
          · have hlt' : idx < m'.jobs.length := by
              rw [hmL]
              simpa using hlt
            have hgetE : m'.jobs[idx]? = some (m'.jobs.getD idx djob) :=
              jc_getElem?_getD djob hlt'
            rw [hgd] at hgetE
            rw [find_job_by_jid]
            exact jc_find?_of_unique hndL hgetE hj'jid
          · rw [← hgd]
            exact hz
  · decide

/-- Witness for C1 (amended): a foreground job with one pid, reaped
normally; wait_fg deletes the job (the left disjunct holds). -/
theorem wait_fg_delete_iff_zero_and_restore_witness :
    (((job_manager.mk [job.mk 1 7 job_state.FOREGROUND 1 1 [9]] 2).jobs.map job.job_id).Nodup ∧
      find_job_by_jid (job_manager.mk [job.mk 1 7 job_state.FOREGROUND 1 1 [9]] 2) 1 =
        some (job.mk 1 7 job_state.FOREGROUND 1 1 [9]) ∧
      wait_fg (job_manager.mk [job.mk 1 7 job_state.FOREGROUND 1 1 [9]] 2) 1
        [wevent.reap 9] = some (job_manager.mk [] 2)) ∧
      (find_job_by_jid (job_manager.mk [] 2) 1 = none ∨
        (∃ j', find_job_by_jid (job_manager.mk [] 2) 1 = some j' ∧
          j'.remaining_processes ≠ 0)) :=
  ⟨⟨by decide, by decide, by decide⟩,
    wait_fg_delete_iff_zero_and_restore.1
      (job_manager.mk [job.mk 1 7 job_state.FOREGROUND 1 1 [9]] 2) 1 [wevent.reap 9]
      (job_manager.mk [] 2) (job.mk 1 7 job_state.FOREGROUND 1 1 [9])
      (by decide) (by decide) (by decide)⟩

theorem jc_mem_eraseIdx {α : Type} {l : List α} {i : Nat} {a : α}
    (h : a ∈ l.eraseIdx i) : a ∈ l := by
  induction l generalizing i with
  | nil => simpa using h
  | cons b t ih =>
      cases i with
      | zero =>
          simp only [List.eraseIdx] at h
          exact List.mem_cons_of_mem b h
      | succ i' =>
          simp only [List.eraseIdx, List.mem_cons] at h
          rcases h with rfl | h
          · exact List.mem_cons_self a t
          · exact List.mem_cons_of_mem b (ih h)

theorem jc_bg_launch_inv (m : job_manager) (p : Int) (ps : List Int)
    (hids : idsOK m) (hbg : allBG m) :
    idsOK (bg_launch m p ps) ∧ allBG (bg_launch m p ps) := by
  by_cases hfull : MAX_JOBS ≤ m.jobs.length
  · have hA : allocate_job m p (ps.length : Int) job_state.BACKGROUND = (none, m) := by
      simp [allocate_job, hfull]
    have : bg_launch m p ps = m := by
      simp only [bg_launch, hA]
    rw [this]
    exact ⟨hids, hbg⟩
  · set j0 : job := job.mk m.next_job_id p job_state.BACKGROUND (ps.length : Int) 0
      (List.replicate (ps.length : Int).toNat 0) with hj0
    have hA : allocate_job m p (ps.length : Int) job_state.BACKGROUND =
        (some m.next_job_id, job_manager.mk (m.jobs ++ [j0]) (m.next_job_id + 1)) := by
      simp [allocate_job, hfull, hj0]
    have hold : ∀ x ∈ m.jobs, (x.job_id == j0.job_id) = false := by
      intro x hx
      rw [beq_eq_false_iff_ne]
      have := hids x hx
      have hj0id : j0.job_id = m.next_job_id := rfl
      omega
    obtain ⟨jA, hAeq, hAid, hASt, hATot, hALen, hARem, hALive⟩ :=
      jc_add_pids_spec ps m.jobs j0 (m.next_job_id + 1) hold
        (by simp [hj0]) (by simp [hj0])
        (by
          have h1 : j0.remaining_processes = 0 := rfl
          have h2 : j0.total_processes = (ps.length : Int) := rfl
          omega)
    have hbl : bg_launch m p ps = job_manager.mk (m.jobs ++ [jA]) (m.next_job_id + 1) := by
      simp only [bg_launch, hA]
      exact hAeq
    rw [hbl]
    constructor
    · intro x hx
      rcases List.mem_append.mp hx with h | h
      · have := hids x h
        show x.job_id < m.next_job_id + 1
        omega
      · simp only [List.mem_singleton] at h
        subst h
        show x.job_id < m.next_job_id + 1
        rw [hAid]
        have hj0i : j0.job_id = m.next_job_id := rfl
        omega
    · intro x hx
      rcases List.mem_append.mp hx with h | h
      · exact hbg x h
      · simp only [List.mem_singleton] at h
        subst h
        exact hASt.trans rfl

theorem jc_fg_launch_inv (m : job_manager) (p : Int) (ps : List Int)
    (ev : List wevent) (m' : job_manager)
    (hids : idsOK m) (hbg : allBG m)
    (hrun : fg_launch m p ps ev = some m')
    (hgone : find_job_by_jid m' m.next_job_id = none) :
    idsOK m' ∧ allBG m' := by
  by_cases hfull : MAX_JOBS ≤ m.jobs.length
  · have hA : allocate_job m p (ps.length : Int) job_state.FOREGROUND = (none, m) := by
      simp [allocate_job, hfull]
    simp only [fg_launch, hA] at hrun
    cases hrun
    exact ⟨hids, hbg⟩
  · set j0 : job := job.mk m.next_job_id p job_state.FOREGROUND (ps.length : Int) 0
      (List.replicate (ps.length : Int).toNat 0) with hj0
    have hA : allocate_job m p (ps.length : Int) job_state.FOREGROUND =
        (some m.next_job_id, job_manager.mk (m.jobs ++ [j0]) (m.next_job_id + 1)) := by
      simp [allocate_job, hfull, hj0]
    have hold : ∀ x ∈ m.jobs, (x.job_id == j0.job_id) = false := by
      intro x hx
      rw [beq_eq_false_iff_ne]
      have := hids x hx
      have hj0i : j0.job_id = m.next_job_id := rfl
      omega
    obtain ⟨jA, hAeq, hAid, hASt, hATot, hALen, hARem, hALive⟩ :=
      jc_add_pids_spec ps m.jobs j0 (m.next_job_id + 1) hold
        (by simp [hj0]) (by simp [hj0])
        (by
          have h1 : j0.remaining_processes = 0 := rfl
          have h2 : j0.total_processes = (ps.length : Int) := rfl
          omega)
    simp only [fg_launch, hA] at hrun
    rw [hAeq] at hrun
    have hAjid : jA.job_id = m.next_job_id := by
      rw [hAid]
    have hfiW : firstIdx (fun x => x.job_id == m.next_job_id) (m.jobs ++ [jA]) =
        some m.jobs.length := by
      apply jc_firstIdx_append
      · intro x hx
        rw [beq_eq_false_iff_ne]
        have := hids x hx
        omega
      · simp [hAjid]
    have hlen' : m.jobs.length <
        (job_manager.mk (m.jobs ++ [jA]) (m.next_job_id + 1)).jobs.length := by
      simp
    simp only [wait_fg, hfiW] at hrun
    cases hloop : wait_fg_loop (job_manager.mk (m.jobs ++ [jA]) (m.next_job_id + 1))
        m.jobs.length ev with
    | none =>
        rw [hloop] at hrun
        simp at hrun
    | some mL =>
        simp only [hloop] at hrun
        obtain ⟨j2, hmL, hj2id, hj2st⟩ := jc_wait_loop_shape ev _ _ mL hlen' hloop
        have hgd0 : ((m.jobs ++ [jA]).getD m.jobs.length djob) = jA :=
          jc_getD_append m.jobs jA [] djob
        have hmL' : mL = job_manager.mk (m.jobs ++ [j2]) (m.next_job_id + 1) := by
          rw [hmL]
          show job_manager.mk ((m.jobs ++ [jA]).set m.jobs.length j2) _ = _
          rw [jc_set_append]
        have hj2jid : j2.job_id = m.next_job_id := by
          rw [hj2id]
          show ((m.jobs ++ [jA]).getD m.jobs.length djob).job_id = _
          rw [hgd0, hAjid]
        by_cases hz : (mL.jobs.getD m.jobs.length djob).remaining_processes = 0
        · rw [if_pos hz] at hrun
          cases hrun
          have hfiD : firstIdx (fun x => x.job_id == m.next_job_id) (m.jobs ++ [j2]) =
              some m.jobs.length := by
            apply jc_firstIdx_append
            · intro x hx
              rw [beq_eq_false_iff_ne]
              have := hids x hx
              omega
            · simp [hj2jid]
          have hdel : (delete_job mL m.next_job_id).2 =
              job_manager.mk m.jobs (m.next_job_id + 1) := by
            rw [hmL']
            simp only [delete_job, hfiD]
            rw [jc_eraseIdx_append]
            simp
          rw [hdel]
          constructor
          · intro x hx
            have := hids x hx
            show x.job_id < m.next_job_id + 1
            omega
          · intro x hx
            exact hbg x hx
        · rw [if_neg hz] at hrun
          cases hrun
          exfalso
          have hfind2 : find_job_by_jid m' m.next_job_id = some j2 := by
            rw [find_job_by_jid, hmL']
            apply jc_find?_append
            · intro x hx
              rw [beq_eq_false_iff_ne]
              have := hids x hx
              omega
            · simp [hj2jid]
          rw [hfind2] at hgone
          exact Option.noConfusion hgone

theorem jc_sigchld_step_inv (s : shell_state) (pid : Int) (s' : shell_state)
    (hids : idsOK s.mgr) (hbg : allBG s.mgr)
    (h : sigchld_step s pid = some s') : idsOK s'.mgr ∧ allBG s'.mgr := by
  cases heq : firstIdx
      (fun j => (j.pids.take j.remaining_processes.toNat).any (fun x => x == pid))
      s.mgr.jobs with
  | none => simp [sigchld_step, heq] at h
  | some i =>
      have hiL : i < s.mgr.jobs.length := jc_firstIdx_lt heq
      have hmemi : s.mgr.jobs.getD i djob ∈ s.mgr.jobs := jc_getD_mem djob hiL
      obtain ⟨hrid, hrst, hrtot⟩ := jc_remove_fields (s.mgr.jobs.getD i djob) pid
      have hset_ids : idsOK (job_manager.mk
          (s.mgr.jobs.set i (remove_pid_from_job (s.mgr.jobs.getD i djob) pid).2)
          s.mgr.next_job_id) := by
        intro x hx
        rcases List.mem_or_eq_of_mem_set hx with hxm | hxe
        · exact hids x hxm
        · subst hxe
          show (remove_pid_from_job (s.mgr.jobs.getD i djob) pid).2.job_id < s.mgr.next_job_id
          rw [hrid]
          exact hids _ hmemi
      have hset_bg : allBG (job_manager.mk
          (s.mgr.jobs.set i (remove_pid_from_job (s.mgr.jobs.getD i djob) pid).2)
          s.mgr.next_job_id) := by
        intro x hx
        rcases List.mem_or_eq_of_mem_set hx with hxm | hxe
        · exact hbg x hxm
        · subst hxe
          show (remove_pid_from_job (s.mgr.jobs.getD i djob) pid).2.state = job_state.BACKGROUND
          rw [hrst]
          exact hbg _ hmemi
      simp only [sigchld_step, heq] at h
      split at h
      · cases h
        constructor
        · intro x hx
          have hx' : x ∈ (job_manager.mk
              (s.mgr.jobs.set i (remove_pid_from_job (s.mgr.jobs.getD i djob) pid).2)
              s.mgr.next_job_id).jobs := by
            revert hx
            show x ∈ (delete_job _ _).2.jobs → _
            intro hx
            cases heq2 : firstIdx (fun y => y.job_id ==
                (remove_pid_from_job (s.mgr.jobs.getD i djob) pid).2.job_id)
                (s.mgr.jobs.set i (remove_pid_from_job (s.mgr.jobs.getD i djob) pid).2) with
            | none =>
                simp only [delete_job, heq2] at hx
                exact hx
            | some k =>
                simp only [delete_job, heq2] at hx
                exact jc_mem_eraseIdx hx
          have := hset_ids x hx'
          show x.job_id < (delete_job _ _).2.next_job_id
          rw [jc_delete_next]
          exact this
        · intro x hx
          have hx' : x ∈ (job_manager.mk
              (s.mgr.jobs.set i (remove_pid_from_job (s.mgr.jobs.getD i djob) pid).2)
              s.mgr.next_job_id).jobs := by
            revert hx
            show x ∈ (delete_job _ _).2.jobs → _
            intro hx
            cases heq2 : firstIdx (fun y => y.job_id ==
                (remove_pid_from_job (s.mgr.jobs.getD i djob) pid).2.job_id)
                (s.mgr.jobs.set i (remove_pid_from_job (s.mgr.jobs.getD i djob) pid).2) with
            | none =>
                simp only [delete_job, heq2] at hx
                exact hx
            | some k =>
                simp only [delete_job, heq2] at hx
                exact jc_mem_eraseIdx hx
          exact hset_bg x hx'
      · cases h
        exact ⟨hset_ids, hset_bg⟩

theorem jc_handle_sigchld_inv (reaped : List Int) :
    ∀ (s s' : shell_state), idsOK s.mgr → allBG s.mgr →
      handle_sigchld s reaped = some s' → idsOK s'.mgr ∧ allBG s'.mgr := by
  induction reaped with
  | nil =>
      intro s s' hids hbg h
      simp only [handle_sigchld, List.foldlM_nil, Option.pure_def, Option.some.injEq] at h
      subst h
      exact ⟨hids, hbg⟩
  | cons p rest ih =>
      intro s s' hids hbg h
      simp only [handle_sigchld, List.foldlM_cons] at h
      cases hstep : sigchld_step s p with
      | none => rw [hstep] at h; simp at h
      | some s1 =>
          rw [hstep] at h
          simp only [Option.bind_eq_bind, Option.some_bind] at h
          obtain ⟨h1, h2⟩ := jc_sigchld_step_inv s p s1 hids hbg hstep
          exact ih s1 s' h1 h2 h

theorem jc_reach_inv : ∀ s : shell_state, ReachIdle s → idsOK s.mgr ∧ allBG s.mgr := by
  intro s h
  induction h with
  | init =>
      constructor
      · intro j hj
        simp [init_job_manager] at hj
      · intro j hj
        simp [init_job_manager] at hj
  | bg s p ps hs ih => exact jc_bg_launch_inv s.mgr p ps ih.1 ih.2
  | fg s p ps ev m' hs hrun hgone ih =>
      exact jc_fg_launch_inv s.mgr p ps ev m' ih.1 ih.2 hrun hgone
  | sigchld s reaped s' hs hrun ih =>
      exact jc_handle_sigchld_inv reaped s s' ih.1 ih.2 hrun

theorem jc_filter_fg_nil (m : job_manager) (h : allBG m) :
    m.jobs.filter (fun j => decide (j.state = job_state.FOREGROUND)) = [] := by
  rw [List.filter_eq_nil]
  intro a ha
  simp [h a ha]

/-- C2 counterexample: the claim's own step alphabet reaches a table with
two FOREGROUND jobs — two bare allocate_job calls with state FOREGROUND
suffice, since allocate_job never checks for an existing foreground job. -/
theorem raw_double_foreground_counterexample :
    RawReach ⟨⟨[⟨1, 10, job_state.FOREGROUND, 1, 0, [0]⟩,
                ⟨2, 20, job_state.FOREGROUND, 1, 0, [0]⟩], 3⟩, []⟩ ∧
      fgcount ⟨[⟨1, 10, job_state.FOREGROUND, 1, 0, [0]⟩,
                ⟨2, 20, job_state.FOREGROUND, 1, 0, [0]⟩], 3⟩ = 2 := by
  constructor
  · have h1 := RawReach.alloc ⟨init_job_manager, []⟩ 10 1 job_state.FOREGROUND RawReach.init
    have h2 := RawReach.alloc _ 20 1 job_state.FOREGROUND h1
    exact h2
  · decide

/-- C2 (amended): every job's state is FOREGROUND or BACKGROUND, and the
at-most-one-FOREGROUND bound holds under the shell's calling discipline:
between top-level steps (background launches, foreground launches whose
wait_fg completes and removes the issued job, sigchld dispatches) the table
holds no FOREGROUND job at all, and inside a foreground launch the table
right after allocation and pid registration holds at most one. -/
theorem shell_discipline_foreground_invariant :
    (∀ s : shell_state, ReachIdle s →
        (∀ j ∈ s.mgr.jobs,
          j.state = job_state.FOREGROUND ∨ j.state = job_state.BACKGROUND) ∧
        fgcount s.mgr = 0) ∧
    (∀ (s : shell_state) (p : Int) (ps : List Int) (jid : Int) (m1 : job_manager),
        ReachIdle s →
        allocate_job s.mgr p (ps.length : Int) job_state.FOREGROUND = (some jid, m1) →
        fgcount (add_pids m1 jid ps) ≤ 1) := by
  constructor
  · intro s hs
    obtain ⟨hids, hbg⟩ := jc_reach_inv s hs
    constructor
    · intro j hj
      cases h2 : j.state
      · exact Or.inl rfl
      · exact Or.inr rfl
    · rw [fgcount, jc_filter_fg_nil s.mgr hbg]
      rfl
  · intro s p ps jid m1 hs hA
    obtain ⟨hids, hbg⟩ := jc_reach_inv s hs
    by_cases hfull : MAX_JOBS ≤ s.mgr.jobs.length
    · simp [allocate_job, hfull] at hA
    · set j0 : job := job.mk s.mgr.next_job_id p job_state.FOREGROUND (ps.length : Int) 0
        (List.replicate (ps.length : Int).toNat 0) with hj0
      have hA' : allocate_job s.mgr p (ps.length : Int) job_state.FOREGROUND =
          (some s.mgr.next_job_id,
            job_manager.mk (s.mgr.jobs ++ [j0]) (s.mgr.next_job_id + 1)) := by
        simp [allocate_job, hfull, hj0]
      rw [hA'] at hA
      rw [Prod.mk.injEq] at hA
      obtain ⟨hjid, hm1⟩ := hA
      have hjid' : jid = s.mgr.next_job_id := (Option.some.inj hjid).symm
      subst hm1
      subst hjid'
      have hold : ∀ x ∈ s.mgr.jobs, (x.job_id == j0.job_id) = false := by
        intro x hx
        rw [beq_eq_false_iff_ne]
        have := hids x hx
        have hj0i : j0.job_id = s.mgr.next_job_id := rfl
        omega
      obtain ⟨jA, hAeq, hAid, hASt, hATot, hALen, hARem, hALive⟩ :=
        jc_add_pids_spec ps s.mgr.jobs j0 (s.mgr.next_job_id + 1) hold
          (by simp [hj0]) (by simp [hj0])
          (by
            have h1 : j0.remaining_processes = 0 := rfl
            have h2 : j0.total_processes = (ps.length : Int) := rfl
            omega)
      have hj0id : j0.job_id = s.mgr.next_job_id := rfl
      rw [hj0id] at hAeq
      rw [hAeq, fgcount]
      rw [List.filter_append, jc_filter_fg_nil ⟨s.mgr.jobs, s.mgr.next_job_id + 1⟩ ?hbg2]
      · simp only [List.nil_append]
        calc (List.filter (fun j => decide (j.state = job_state.FOREGROUND)) [jA]).length
            ≤ ([jA] : List job).length := List.length_filter_le _ _
          _ = 1 := rfl
      · exact hbg

/-- Witness for C2 (amended): the initial state is reachable and holds zero
FOREGROUND jobs. -/
theorem shell_discipline_foreground_invariant_witness :
    fgcount (⟨init_job_manager, ([] : List (Int × Int))⟩ : shell_state).mgr = 0 :=
  (shell_discipline_foreground_invariant.1 ⟨init_job_manager, []⟩ ReachIdle.init).2

theorem jc_no_release_split (l : List pevent)
    (hfree : ∀ e ∈ l, isRelease e = false) :
    ∀ (u v : List pevent) (w : pevent), l = u ++ w :: v → isRelease w = true → False := by
  intro u v w hl hw
  have hmem : w ∈ l := by
    rw [hl]
    simp
  rw [hfree w hmem] at hw
  exact Bool.noConfusion hw

theorem jc_mem_left_of_split : ∀ (pre suf u v : List pevent) (w : pevent),
    (∀ e ∈ pre, isRelease e = false) →
    pre ++ suf = u ++ w :: v → isRelease w = true →
    ∀ a ∈ pre, a ∈ u := by
  intro pre
  induction pre with
  | nil =>
      intro suf u v w _ _ _ a ha
      simp at ha
  | cons x t ih =>
      intro suf u v w hfree hsplit hw a ha
      cases u with
      | nil =>
          simp only [List.nil_append, List.cons_append] at hsplit
          injection hsplit with h1 h2
          subst h1
          have := hfree x (by simp)
          rw [this] at hw
          exact Bool.noConfusion hw
      | cons y u' =>
          simp only [List.cons_append] at hsplit
          injection hsplit with h1 h2
          subst h1
          rcases List.mem_cons.mp ha with rfl | hat
          · exact List.mem_cons_self _ _
          · exact List.mem_cons_of_mem _
              (ih suf u' v w (fun e he => hfree e (List.mem_cons_of_mem _ he)) h2 hw a hat)

theorem jc_free_killmap (n : Nat) :
    ∀ e ∈ (List.range n).map pevent.killChildEvt, isRelease e = false := by
  intro e he
  simp only [List.mem_map] at he
  obtain ⟨k, -, rfl⟩ := he
  rfl

theorem jc_free_setpgidmap (n : Nat) :
    ∀ e ∈ (List.range n).map pevent.setpgidEvt, isRelease e = false := by
  intro e he
  simp only [List.mem_map] at he
  obtain ⟨k, -, rfl⟩ := he
  rfl

theorem jc_free_addpidmap (n : Nat) :
    ∀ e ∈ (List.range n).map pevent.addPidEvt, isRelease e = false := by
  intro e he
  simp only [List.mem_map] at he
  obtain ⟨k, -, rfl⟩ := he
  rfl

theorem jc_free_ip_cleanup (bg : Bool) (n : Nat) :
    ∀ e ∈ ip_cleanup bg n, isRelease e = false := by
  intro e he
  rw [ip_cleanup] at he
  rcases List.mem_append.mp he with h | h
  · cases bg
    · simp only [if_neg Bool.false_ne_true, List.mem_singleton] at h
      subst h
      rfl
    · simp at h
  · exact jc_free_killmap n e h

theorem jc_parent_of_release {e : pevent} (h : isRelease e = true) :
    isParentEvt e = true := by
  cases e <;> simp [isRelease, isParentEvt] at h ⊢

theorem jc_ip_release_after_reg :
    ∀ (bg : Bool) (n : Nat) (pf ff : Option Nat) (ao : Bool) (af : Option Nat)
      (tc : Bool) (wfl : Option Nat) (u v : List pevent) (w : pevent),
      iter_pipe_trace bg n pf ff ao af tc wfl = u ++ w :: v →
      isRelease w = true →
      pevent.allocEvt ∈ u ∧ (∀ k, k < n → pevent.addPidEvt k ∈ u) ∧
      (bg = false → pevent.tcsetEvt ∈ u) := by
  intro bg n pf ff ao af tc wfl u v w hsplit hw
  cases pf with
  | some i =>
      exfalso
      have htr : iter_pipe_trace bg n (some i) ff ao af tc wfl = ([] : List pevent) := by
        simp [iter_pipe_trace]
      exact jc_no_release_split [] (by simp) u v w (htr.symm.trans hsplit) hw
  | none =>
  cases ff with
  | some i =>
      exfalso
      have htr : iter_pipe_trace bg n none (some i) ao af tc wfl =
          (List.range (min i n)).map pevent.killChildEvt := by
        simp [iter_pipe_trace]
      exact jc_no_release_split _ (jc_free_killmap _) u v w (htr.symm.trans hsplit) hw
  | none =>
  cases ao with
  | false =>
      exfalso
      have htr : iter_pipe_trace bg n none none false af tc wfl = ip_cleanup bg n := by
        simp [iter_pipe_trace]
      exact jc_no_release_split _ (jc_free_ip_cleanup bg n) u v w (htr.symm.trans hsplit) hw
  | true =>
  cases af with
  | some i =>
      exfalso
      have htr : iter_pipe_trace bg n none none true (some i) tc wfl =
          pevent.allocEvt :: ((List.range n).map pevent.setpgidEvt ++
            ((List.range (min i n)).map pevent.addPidEvt ++ ip_cleanup bg n)) := by
        simp [iter_pipe_trace]
      refine jc_no_release_split _ ?_ u v w (htr.symm.trans hsplit) hw
      intro e he
      simp only [List.mem_cons, List.mem_append] at he
      rcases he with rfl | (h | (h | h))
      · rfl
      · exact jc_free_setpgidmap _ e h
      · exact jc_free_addpidmap _ e h
      · exact jc_free_ip_cleanup bg n e h
  | none =>
  cases bg with
  | true =>
      have hfreePRE : ∀ e ∈ pevent.allocEvt :: ((List.range n).map pevent.setpgidEvt ++
          (List.range n).map pevent.addPidEvt), isRelease e = false := by
        intro e he
        simp only [List.mem_cons, List.mem_append] at he
        rcases he with rfl | (h | h)
        · rfl
        · exact jc_free_setpgidmap _ e h
        · exact jc_free_addpidmap _ e h
      have hconc : ∀ Y : List pevent,
          iter_pipe_trace true n none none true none tc wfl = u ++ w :: v →
          iter_pipe_trace true n none none true none tc wfl =
            (pevent.allocEvt :: ((List.range n).map pevent.setpgidEvt ++
              (List.range n).map pevent.addPidEvt)) ++ Y →
          pevent.allocEvt ∈ u ∧ (∀ k, k < n → pevent.addPidEvt k ∈ u) ∧
          (true = false → pevent.tcsetEvt ∈ u) := by
        intro Y hs htr
        have hmem := jc_mem_left_of_split _ Y u v w hfreePRE (htr.symm.trans hs) hw
        refine ⟨hmem _ (by simp), ?_, ?_⟩
        · intro k hk
          refine hmem _ ?_
          simp only [List.mem_cons, List.mem_append, List.mem_map, List.mem_range]
          right
          right
          exact ⟨k, hk, rfl⟩
        · intro h
          exact Bool.noConfusion h
      cases wfl with
      | some i =>
          exact hconc ((List.range (min i n)).map pevent.writeReleaseEvt ++ ip_cleanup true n)
            hsplit (by simp [iter_pipe_trace])
      | none =>
          exact hconc ((List.range n).map pevent.writeReleaseEvt ++ [pevent.printJobEvt])
            hsplit (by simp [iter_pipe_trace])
  | false =>
      cases tc with
      | false =>
          exfalso
          have htr : iter_pipe_trace false n none none true none false wfl =
              pevent.allocEvt :: ((List.range n).map pevent.setpgidEvt ++
                ((List.range n).map pevent.addPidEvt ++ ip_cleanup false n)) := by
            simp [iter_pipe_trace]
          refine jc_no_release_split _ ?_ u v w (htr.symm.trans hsplit) hw
          intro e he
          simp only [List.mem_cons, List.mem_append] at he
          rcases he with rfl | (h | (h | h))
          · rfl
          · exact jc_free_setpgidmap _ e h
          · exact jc_free_addpidmap _ e h
          · exact jc_free_ip_cleanup false n e h
      | true =>
          have hfreePRE : ∀ e ∈ pevent.allocEvt :: ((List.range n).map pevent.setpgidEvt ++
              ((List.range n).map pevent.addPidEvt ++ [pevent.tcsetEvt])),
              isRelease e = false := by
            intro e he
            simp only [List.mem_cons, List.mem_append, List.mem_singleton] at he
            rcases he with rfl | (h | (h | (rfl | h0)))
            · rfl
            · exact jc_free_setpgidmap _ e h
            · exact jc_free_addpidmap _ e h
            · rfl
            · simp at h0
          have hconc : ∀ Y : List pevent,
              iter_pipe_trace false n none none true none true wfl = u ++ w :: v →
              iter_pipe_trace false n none none true none true wfl =
                (pevent.allocEvt :: ((List.range n).map pevent.setpgidEvt ++
                  ((List.range n).map pevent.addPidEvt ++ [pevent.tcsetEvt]))) ++ Y →
              pevent.allocEvt ∈ u ∧ (∀ k, k < n → pevent.addPidEvt k ∈ u) ∧
              (false = false → pevent.tcsetEvt ∈ u) := by
            intro Y hs htr
            have hmem := jc_mem_left_of_split _ Y u v w hfreePRE (htr.symm.trans hs) hw
            refine ⟨hmem _ (by simp), ?_, ?_⟩
            · intro k hk
              refine hmem _ ?_
              simp only [List.mem_cons, List.mem_append, List.mem_map, List.mem_range,
                List.mem_singleton]
              right
              right
              left
              exact ⟨k, hk, rfl⟩
            · intro _
              refine hmem _ ?_
              simp
          cases wfl with
          | some i =>
              exact hconc ((List.range (min i n)).map pevent.writeReleaseEvt ++
                ip_cleanup false n) hsplit (by simp [iter_pipe_trace])
          | none =>
              exact hconc ((List.range n).map pevent.writeReleaseEvt ++
                [pevent.waitFgEvt, pevent.restoreTermEvt]) hsplit (by simp [iter_pipe_trace])

theorem jc_schedule_reg_before_read :
    ∀ (n : Nat) (fg : Bool) (tr P : List pevent),
      tr.filter isParentEvt = P →
      (∀ (u v : List pevent) (w : pevent), P = u ++ w :: v → isRelease w = true →
        pevent.allocEvt ∈ u ∧ (∀ k, k < n → pevent.addPidEvt k ∈ u) ∧
        (fg = true → pevent.tcsetEvt ∈ u)) →
      ∀ i : Nat, i < tr.length →
        (∃ k, tr.getD i devt = pevent.readDoneEvt k) →
        (∃ jx, jx < i ∧ isRelease (tr.getD jx devt) = true) →
        pevent.allocEvt ∈ tr.take i ∧
        (∀ k, k < n → pevent.addPidEvt k ∈ tr.take i) ∧
        (fg = true → pevent.tcsetEvt ∈ tr.take i) := by
  intro n fg tr P hfilter hpar i hi hrd hjx
  obtain ⟨jx, hjxi, hjrel⟩ := hjx
  have hjlen : jx < tr.length := lt_trans hjxi hi
  have hdecomp : tr = tr.take jx ++ tr.getD jx devt :: tr.drop (jx + 1) := by
    conv_lhs => rw [← List.take_append_drop jx tr]
    congr 1
    rw [List.drop_eq_getElem_cons hjlen, List.getD_eq_getElem tr devt hjlen]
  have hfsplit : P = List.filter isParentEvt (tr.take jx) ++
      tr.getD jx devt :: List.filter isParentEvt (tr.drop (jx + 1)) := by
    rw [← hfilter]
    conv_lhs => rw [hdecomp]
    rw [List.filter_append, List.filter_cons_of_pos (jc_parent_of_release hjrel)]
  obtain ⟨halloc, hadds, htcs⟩ := hpar _ _ _ hfsplit hjrel
  have hsub : ∀ a : pevent, a ∈ List.filter isParentEvt (tr.take jx) → a ∈ tr.take i := by
    intro a ha
    have h1 : a ∈ tr.take jx := List.mem_of_mem_filter ha
    have h2 : (tr.take i).take jx = tr.take jx := by
      rw [List.take_take]
      congr 1
      omega
    rw [← h2] at h1
    exact List.take_subset _ _ h1
  exact ⟨hsub _ halloc, fun k hk => hsub _ (hadds k hk), fun hfg => hsub _ (htcs hfg)⟩

/-- C9: the release byte is written only after registration is complete.
Part 1 (fork_exec): on every execution path, at any position of the trace
holding the release write, the allocate_job call, the add_pid_to_job call
and — for a foreground launch — the terminal transfer already appear
earlier in the trace.  Part 2 (iter_pipe_fork_exec, any pipeline width n):
any decomposition of the trace around a release write has the allocation,
all n pid registrations and (foreground) the terminal transfer in the
prefix.  Part 3 (the Synchronizer): in any interleaving of the parent's
events with child events that preserves the parent's order (the parent's
subsequence of the schedule is its trace) and in which a release read
completes only after some release write — which the blocking pipe read
guarantees — every registration step precedes the read completion. -/
theorem release_write_after_registration :
    (∀ (bg pipe_ok fork_ok alloc_ok add_ok tcset_ok write_ok : Bool) (i : Nat),
        i < (fork_exec_trace bg pipe_ok fork_ok alloc_ok add_ok tcset_ok write_ok).length →
        isRelease ((fork_exec_trace bg pipe_ok fork_ok alloc_ok add_ok
          tcset_ok write_ok).getD i devt) = true →
        pevent.allocEvt ∈ (fork_exec_trace bg pipe_ok fork_ok alloc_ok add_ok
          tcset_ok write_ok).take i ∧
        pevent.addPidEvt 0 ∈ (fork_exec_trace bg pipe_ok fork_ok alloc_ok add_ok
          tcset_ok write_ok).take i ∧
        (bg = false → pevent.tcsetEvt ∈ (fork_exec_trace bg pipe_ok fork_ok alloc_ok
          add_ok tcset_ok write_ok).take i)) ∧
    (∀ (bg : Bool) (n : Nat) (pf ff : Option Nat) (ao : Bool) (af : Option Nat)
        (tc : Bool) (wfl : Option Nat) (u v : List pevent) (w : pevent),
        iter_pipe_trace bg n pf ff ao af tc wfl = u ++ w :: v →
        isRelease w = true →
        pevent.allocEvt ∈ u ∧ (∀ k, k < n → pevent.addPidEvt k ∈ u) ∧
        (bg = false → pevent.tcsetEvt ∈ u)) ∧
    (∀ (n : Nat) (fg : Bool) (tr P : List pevent),
        tr.filter isParentEvt = P →
        (∀ (u v : List pevent) (w : pevent), P = u ++ w :: v → isRelease w = true →
          pevent.allocEvt ∈ u ∧ (∀ k, k < n → pevent.addPidEvt k ∈ u) ∧
          (fg = true → pevent.tcsetEvt ∈ u)) →
        ∀ i : Nat, i < tr.length →
          (∃ k, tr.getD i devt = pevent.readDoneEvt k) →
          (∃ jx, jx < i ∧ isRelease (tr.getD jx devt) = true) →
          pevent.allocEvt ∈ tr.take i ∧
          (∀ k, k < n → pevent.addPidEvt k ∈ tr.take i) ∧
          (fg = true → pevent.tcsetEvt ∈ tr.take i)) :=
  ⟨by decide, jc_ip_release_after_reg, jc_schedule_reg_before_read⟩

/-- Witness for C9: a successful background fork_exec; position 3 of its
trace is the release write, and allocation and pid registration lie in the
prefix. -/
theorem release_write_after_registration_witness :
    (3 < (fork_exec_trace true true true true true true true).length ∧
      isRelease ((fork_exec_trace true true true true true true true).getD 3 devt) = true) ∧
      (pevent.allocEvt ∈ (fork_exec_trace true true true true true true true).take 3 ∧
        pevent.addPidEvt 0 ∈ (fork_exec_trace true true true true true true true).take 3 ∧
        (true = false →
          pevent.tcsetEvt ∈ (fork_exec_trace true true true true true true true).take 3)) :=
  ⟨⟨by decide, by decide⟩,
    release_write_after_registration.1 true true true true true true true 3
      (by decide) (by decide)⟩
